import Mathlib

/-!
Verification development for the PhonoErrorPatterns repository.

The repository classifies discrepancies between a target and an actual IPA
transcription (`error_pattern`), refines ambiguous `_other` labels via a
combinatorial alignment search (`error_pattern_resolver`), and maps finished
labels to numeric scores (`error_quantifier`).

The panphon feature table is external to the repository; it is modelled as an
abstract `FeatureService`: a segmentation function, a feature-vector function
aligned with it, a distance function on feature vectors valued in `ℚ`, and a
predicate telling whether a vector is syllabic (carries `('syl', 1)`).

Python string operations used by the source (`str.count`, `in`, `str.split`,
single-character `str.replace`, `sorted`) are given exact counterparts on
`List Char` (`pyCount`, `pyIn`, `pySplit`, `replaceSchwa`,
`List.insertionSort`).
-/

set_option allowUnsafeReducibility true

attribute [local semireducible] Rat.add Rat.sub Rat.mul Rat.inv Rat.div

namespace PhonoEP

/-! ### Python string primitives -/

/-- Lexicographic comparison of character lists by code point, exactly the
order Python's `sorted` uses on strings. -/
def strLeAux : List Char → List Char → Bool
  | [], _ => true
  | _ :: _, [] => false
  | a :: as, b :: bs => if a = b then strLeAux as bs else a.toNat < b.toNat

/-- Python's `≤` on strings (code-point lexicographic). -/
def strLe (a b : String) : Bool := strLeAux a.data b.data

/-- `strLe` as a proposition, for use with `List.insertionSort`. -/
def strLeP (a b : String) : Prop := strLe a b = true

instance : DecidableRel strLeP := fun a b =>
  inferInstanceAs (Decidable (strLe a b = true))

/-- Python `pat in s` (substring containment) on character lists. -/
def pyIn (pat : List Char) : List Char → Bool
  | [] => pat.isPrefixOf []
  | c :: rest => pat.isPrefixOf (c :: rest) || pyIn pat rest

/-- Core of Python `s.count(pat)`: non-overlapping occurrences, scanning left
to right; after a match the next `pat.length - 1` characters are skipped,
recorded in the `skip` counter. -/
def pyCountGo (pat : List Char) : List Char → Nat → Nat
  | [], _ => 0
  | c :: rest, skip =>
    match skip with
    | n + 1 => pyCountGo pat rest n
    | 0 =>
      if pat.isPrefixOf (c :: rest) then
        1 + pyCountGo pat rest (pat.length - 1)
      else pyCountGo pat rest 0

/-- Python `s.count(pat)` on character lists. -/
def pyCount (s pat : List Char) : Nat := pyCountGo pat s 0

/-- Number of positions of `s` at which `pat` occurs (occurrences may
overlap).  For the two-character patterns with distinct characters used by the
source this coincides with `pyCount`. -/
def countPos (pat : List Char) : List Char → Nat
  | [] => 0
  | c :: rest => (if pat.isPrefixOf (c :: rest) then 1 else 0) + countPos pat rest

/-- Python `s.split(sep)` for a single-character separator. -/
def pySplit (sep : Char) : List Char → List (List Char)
  | [] => [[]]
  | c :: rest =>
    if c = sep then [] :: pySplit sep rest
    else
      match pySplit sep rest with
      | [] => [[c]]
      | g :: gs => (c :: g) :: gs

/-- `pyIn` on strings (pattern first, as in Python `pat in s`). -/
def pyInS (pat s : String) : Bool := pyIn pat.data s.data

/-- `pyCount` on strings. -/
def pyCountS (s pat : String) : Nat := pyCount s.data pat.data

/-- `pySplit` on strings, on the separator `'-'` used by the source. -/
def pySplitS (s : String) : List String := (pySplit '-' s.data).map String.mk

/-- Python `actual.replace('ᵊ', 'ə')`: for a one-character pattern and
one-character replacement this is a character-wise substitution. -/
def replaceSchwa (s : String) : String :=
  String.mk (s.data.map (fun c => if c = 'ᵊ' then 'ə' else c))

/-! ### The feature service (panphon), abstracted -/

/-- The external feature table: `ipa_segs`/`word_fts` mirror
`panphon.FeatureTable.ipa_segs` and `word_fts`; `dist` is feature-vector
subtraction (`x - y`), valued in `ℚ`; `syl` tells whether
`('syl', 1)` is among a vector's items. -/
structure FeatureService (F : Type) where
  ipa_segs : String → List String
  word_fts : String → List F
  dist : F → F → ℚ
  syl : F → Bool

/-! ### The primary classifier `error_pattern` -/

/-- The scan
`for t_ft in t_fts: dist = t_ft - seg_ft; if 0 < dist < smallest: update`
with mutable state `(smallest_dist, index)`.  The accumulator starts at
`((0, 1), 0)` exactly as in the source (`smallest_dist = (index, 1)` with
`index = 0`). -/
def sdScan {F : Type} (dist : F → F → ℚ) (aft : F) :
    List F → (Nat × ℚ) → Nat → Nat × ℚ
  | [], best, _ => best
  | tft :: rest, best, idx =>
    let d := dist tft aft
    let best' := if 0 < d ∧ d < best.2 then (idx, d) else best
    sdScan dist aft rest best' (idx + 1)

/-- `smallest_dist` as computed by the source for one actual segment. -/
def smallestDist {F : Type} (dist : F → F → ℚ) (t_fts : List F) (aft : F) :
    Nat × ℚ :=
  sdScan dist aft t_fts (0, 1) 0

/-- The string `-C{idx+1}pres` appended in the literal-match branch; the
source tests `idx == 0`, `idx == 1`, `idx == 2` with separate `if`s (its two
copies of this block, for repeated and non-repeated segments, are
identical). -/
def presTag (idx : Nat) : String :=
  (if idx = 0 then "-C1pres" else "") ++
    (if idx = 1 then "-C2pres" else "") ++
    (if idx = 2 then "-C3pres" else "")

/-- The string `-C{idx+1}sub` appended in the nearest-distance branch. -/
def subTag (idx : Nat) : String :=
  (if idx = 0 then "-C1sub" else "") ++
    (if idx = 1 then "-C2sub" else "") ++
    (if idx = 2 then "-C3sub" else "")

/-- Tag contributed by one actual segment in the by-segment loop. -/
def segTag {F : Type} (fs : FeatureService F) (t_segs : List String)
    (t_fts : List F) (seg : String × F) : String :=
  if t_segs.contains seg.1 then presTag (t_segs.indexOf seg.1)
  else subTag (smallestDist fs.dist t_fts seg.2).1

/-- The by-segment loop: vowels are skipped when the actual sequence has more
than two elements; every other actual segment appends its tag. -/
def bySegment {F : Type} (fs : FeatureService F) (t_segs : List String)
    (t_fts : List F) (a_pairs : List (String × F)) (e0 : String) : String :=
  a_pairs.foldl
    (fun e seg =>
      if fs.syl seg.2 ∧ 2 < a_pairs.length then e
      else e ++ segTag fs t_segs t_fts seg)
    e0

/-- The f-string `f"C{i+1}"`. -/
def tagC (i : Nat) : String := "C" ++ toString (i + 1)

/-- Conflict detection: `error.count(f"C{i+1}") > 1` for some target index. -/
def hasConflict (k : Nat) (e : String) : Bool :=
  (List.range k).any (fun i => 1 < pyCountS e (tagC i))

/-- Deletion fill: every target index whose `C{i+1}` does not occur in the
accumulated label gets `-C{i+1}del`, except that a label equal to
`substitution_other` is passed through unchanged. -/
def fillDel (k : Nat) (e : String) : String :=
  if e = "substitution_other" then e
  else
    (List.range k).foldl
      (fun acc i =>
        if pyInS (tagC i) acc then acc else acc ++ ("-" ++ tagC i ++ "del"))
      e

/-- `error.split('-')[0]`. -/
def headPart (e : String) : String := (pySplitS e).headD ""

/-- Canonicalization:
`error.split('-')[0] + '-' + '-'.join(sorted(error.split('-')[1:]))`. -/
def canonicalize (e : String) : String :=
  let parts := pySplitS e
  (parts.headD "") ++ "-" ++
    "-".intercalate (List.insertionSort strLeP parts.tail)

/-- Continuation of the cluster branch once a provisional category `e0` is
set: run the by-segment loop, detect conflicts (escaping to `_other`, or the
debug string), otherwise fill deletions and canonicalize. -/
def clusterTail {F : Type} (fs : FeatureService F) (t_segs : List String)
    (t_fts : List F) (a_pairs : List (String × F)) (debug : Bool)
    (e0 : String) : String :=
  let e1 := bySegment fs t_segs t_fts a_pairs e0
  if hasConflict t_segs.length e1 then
    if debug then "OTHER_" ++ e1 else headPart e1 ++ "_other"
  else canonicalize (fillDel t_segs.length e1)

/-- The classifier `error_pattern(target, actual, debug)`.  Returns `none`
where the Python function raises (`assert len(target) > 0`) or falls through
returning `None` (character length above three). -/
def error_pattern {F : Type} (fs : FeatureService F)
    (target actual0 : String) (debug : Bool) : Option String :=
  let actual := replaceSchwa actual0
  if actual = "∅" then some "deletion"
  else if actual = "nan" then some "deletion"
  else
    let t_segs := fs.ipa_segs target
    let t_fts := fs.word_fts target
    let a_segs := fs.ipa_segs actual
    let a_fts := fs.word_fts actual
    let a_pairs := a_segs.zip a_fts
    if a_segs = ["∅"] ∨ a_segs.length = 0 then some "deletion"
    else if t_segs = a_segs then some "accurate"
    else if target.length = 0 then none
    else if target.length = 1 then
      if t_segs.length = a_segs.length then some "substitution"
      else some "other"
    else if 2 ≤ target.length ∧ target.length ≤ 3 then
      let e1opt : Option String :=
        if a_pairs.any (fun seg => fs.syl seg.2 ∧ 2 < a_pairs.length) then
          some "epenthesis"
        else none
      let e2opt := if a_segs.length < t_segs.length then some "reduction" else e1opt
      let e3opt := if a_segs.length = t_segs.length then some "substitution" else e2opt
      match e3opt with
      | none => some "other"
      | some e0 => some (clusterTail fs t_segs t_fts a_pairs debug e0)
    else none

/-! ### The quantifier `error_quantifier` -/

/-- `error_quantifier(x, ...)` with its six weight arguments.  A `none` input
is first replaced by the empty string, as in the source. -/
def error_quantifier (x0 : Option String)
    (full_correct_value full_deletion_value full_substitution_value
      correct_seg_value substitution_seg_value epenthesis_penalty : ℚ) : ℚ :=
  let x := x0.getD ""
  let parts := pySplitS x
  let head := parts.headD ""
  let tags := parts.tail
  let x_len : ℚ := if tags.length = 0 then 1 else (tags.length : ℚ)
  if x = "accurate" then full_correct_value
  else if x = "deletion" then full_deletion_value
  else
    let score : ℚ := if head = "epenthesis" then epenthesis_penalty else 0
    if x = "substitution" then score + full_substitution_value
    else if x = "substitution_other" then score + full_substitution_value
    else if x = "epenthesis_other" then
      score + full_correct_value + epenthesis_penalty
    else
      tags.foldl
        (fun sc seg =>
          let sc1 :=
            if pyInS "pres" seg then
              sc + correct_seg_value / (x_len * correct_seg_value)
            else sc
          if pyInS "sub" seg then
            sc1 + substitution_seg_value / (x_len * correct_seg_value)
          else sc1)
        score

/-- `error_quantifier` at its documented default weights. -/
def error_quantifier_defaults (x0 : Option String) : ℚ :=
  error_quantifier x0 1 0 (3 / 5) 1 (3 / 5) (-(3 / 10))

/-! ### The alignment resolver `error_pattern_resolver` -/

/-- A `ph_segment`: its raw string, its segmentation, and its feature vector
(`ph_segment.fts`, i.e. `features[0]`). -/
structure PhSeg (F : Type) where
  str : String
  ipa : List String
  fts : F
deriving DecidableEq

instance {F : Type} [Inhabited F] : Inhabited (PhSeg F) :=
  ⟨⟨"", [], default⟩⟩

instance {ε α : Type} [DecidableEq ε] [DecidableEq α] :
    DecidableEq (Except ε α) := fun x y =>
  match x, y with
  | Except.error a, Except.error b =>
    if h : a = b then Decidable.isTrue (by rw [h])
    else Decidable.isFalse (by simp [h])
  | Except.error _, Except.ok _ => Decidable.isFalse (by simp)
  | Except.ok _, Except.error _ => Decidable.isFalse (by simp)
  | Except.ok a, Except.ok b =>
    if h : a = b then Decidable.isTrue (by rw [h])
    else Decidable.isFalse (by simp [h])

instance {F : Type} [DecidableEq F] :
    DecidableEq (String × Option (List (PhSeg F × PhSeg F × ℚ))) :=
  instDecidableEqProd

/-- Errors and crashes of `error_pattern_resolver`:
`multipleOptimal` is the `"multiple ideal alignments found"` exception,
`alignmentConstruction` the bare exception of the overlap consistency check
(both written in the source but, as proved below, never raised),
`typeError` a Python `TypeError` (`len`/iteration on an object that supports
neither, i.e. a zero-segment `ph_element` or a one-segment `ph_segment`, and
the subtraction `x.fts - y.fts` of two bound methods in the distance
matrix), `attributeError` a Python `AttributeError` (`.items` accessed on
the bound method `seg.fts`), and `valueError` Python's `min()` on an empty
sequence (also never reached). -/
inductive RErr : Type
  | typeError : RErr
  | valueError : RErr
  | attributeError : RErr
  | alignmentConstruction : RErr
  | multipleOptimal : RErr
deriving DecidableEq

/-- `ph_element(s, tier).convert_type()` as the list of its segments: a
single-segment string stays one `ph_segment` carrying the whole string, two
or more segments become the cluster's constituents, an unsegmentable string
stays an unconverted `ph_element`, represented by the empty list. -/
def mkElem {F : Type} [Inhabited F] (fs : FeatureService F) (s : String) :
    List (PhSeg F) :=
  match fs.ipa_segs s with
  | [] => []
  | [_] => [⟨s, fs.ipa_segs s, (fs.word_fts s).headD default⟩]
  | segs =>
    segs.map (fun seg => ⟨seg, fs.ipa_segs seg, (fs.word_fts seg).headD default⟩)

/-- `len(x)` on a `ph_element`: raises `TypeError` when the element is an
unconverted `ph_element` (zero segments), which defines no `__len__`. -/
def phLen {F : Type} (l : List (PhSeg F)) : Except RErr Nat :=
  if l.length = 0 then Except.error RErr.typeError else Except.ok l.length

/-- Iterating a `ph_element`: only `ph_cluster` defines `__getitem__`, so a
zero-segment `ph_element` or a one-segment `ph_segment` raises
`TypeError`. -/
def phIter {F : Type} (l : List (PhSeg F)) : Except RErr (List (PhSeg F)) :=
  if l.length ≤ 1 then Except.error RErr.typeError else Except.ok l

/-- `error_pattern_resolver(target, actual, pattern)`. Beyond the early
returns the source crashes: `ph_segment.fts` is a method (ph_element.py
line 84), so the epenthesis branch raises `AttributeError` at
`('syl', 1) in seg.fts.items()` on the first actual segment, and the other
branches raise `TypeError` at `x.fts - y.fts` when the distance matrix is
built (or already at `[x for x in a]` when `a` is a single non-iterable
`ph_segment`). -/
def error_pattern_resolver {F : Type} [Inhabited F] (fs : FeatureService F)
    (target actual pattern : String) :
    Except RErr (String × Option (List (PhSeg F × PhSeg F × ℚ))) :=
  let t := mkElem fs target
  let a := mkElem fs actual
  if pattern = "reduction_other" then Except.ok ("reduction_other", none)
  else
    match phLen t with
    | Except.error e => Except.error e
    | Except.ok tn =>
      if tn ≠ 2 then Except.ok ("", none)
      else if pattern = "epenthesis_other" then
        match phLen a with
        | Except.error e => Except.error e
        | Except.ok _ =>
          match phIter a with
          | Except.error e => Except.error e
          | Except.ok _ => Except.error RErr.attributeError
      else
        match phLen a with
        | Except.error e => Except.error e
        | Except.ok an =>
          if 2 < an then Except.ok ("insertion_other", none)
          else
            match phIter a with
            | Except.error e => Except.error e
            | Except.ok _ => Except.error RErr.typeError

/-- Per-row logic of `error_patterns_table`'s resolver pass: rows whose
pattern contains `"other"` get the resolver's label, the others the empty
string. -/
def tableRowResolved {F : Type} [Inhabited F] (fs : FeatureService F)
    (target actual pattern : String) : Except RErr String :=
  if pyInS "other" pattern then
    (error_pattern_resolver fs target actual pattern).map Prod.fst
  else Except.ok ""

/-- Per-row final label of `error_patterns_table`: the `.loc` assignment
replaces `error_pattern` by `resolved_error` exactly on the rows where the
latter is non-empty. -/
def tableRowFinal {F : Type} [Inhabited F] (fs : FeatureService F)
    (target actual pattern : String) : Except RErr String :=
  match tableRowResolved fs target actual pattern with
  | Except.error e => Except.error e
  | Except.ok r => Except.ok (if r ≠ "" then r else pattern)

/-! ### A concrete feature service used for witnesses and counterexamples -/

/-- Feature vector (as a single rational) of each segment symbol of the
example service. -/
def exF1 : String → ℚ := fun seg =>
  if seg = "b" then 0
  else if seg = "j" then 1 / 2
  else if seg = "z" then 2
  else if seg = "th" then 10
  else if seg = "d" then 21 / 2
  else if seg = "w" then 9 / 10
  else if seg = "ə" then 100
  else 5

/-- Example segmentation: `"th"` is a single (two-character) segment, any
other string splits into its characters. -/
def exSegs : String → List String := fun s =>
  if s = "th" then ["th"] else s.data.map (fun c => String.mk [c])

/-- A concrete instance of the feature-service interface: distance is the
absolute difference of the rational feature values (symmetric, non-negative,
zero exactly on identical vectors), and `ə` is the only syllabic segment. -/
def exFS : FeatureService ℚ where
  ipa_segs := exSegs
  word_fts := fun s => (exSegs s).map exF1
  dist := fun a b => |a - b|
  syl := fun f => f = 100

/-! ### Lemmas on the string primitives -/

theorem countPos_cons (pat : List Char) (c : Char) (s : List Char) :
    countPos pat (c :: s) =
      (if pat.isPrefixOf (c :: s) then 1 else 0) + countPos pat s := rfl

theorem pyIn_cons (pat : List Char) (c : Char) (s : List Char) :
    pyIn pat (c :: s) = (pat.isPrefixOf (c :: s) || pyIn pat s) := rfl

theorem pyCountGo_cons_zero (pat : List Char) (c : Char) (s : List Char) :
    pyCountGo pat (c :: s) 0 =
      if pat.isPrefixOf (c :: s) then 1 + pyCountGo pat s (pat.length - 1)
      else pyCountGo pat s 0 := rfl

theorem pyCountGo_cons_skip (pat : List Char) (c : Char) (s : List Char)
    (n : Nat) : pyCountGo pat (c :: s) (n + 1) = pyCountGo pat s n := rfl

theorem isPrefixOf_pair (a b c : Char) (rest : List Char) :
    [a, b].isPrefixOf (c :: rest) = true ↔ (a = c ∧ rest.head? = some b) := by
  cases rest with
  | nil => simp [List.isPrefixOf]
  | cons d rest =>
    constructor
    · intro h
      simp only [List.isPrefixOf, Bool.and_eq_true, beq_iff_eq] at h
      exact ⟨h.1, by simp [h.2.1]⟩
    · rintro ⟨h1, h2⟩
      simp only [List.head?_cons, Option.some.injEq] at h2
      subst h1
      subst h2
      simp [List.isPrefixOf]

theorem countPos_append (a b : Char) (u v : List Char)
    (hv : v.head? ≠ some b) :
    countPos [a, b] (u ++ v) = countPos [a, b] u + countPos [a, b] v := by
  induction u with
  | nil =>
    rw [List.nil_append]
    show countPos [a, b] v = 0 + countPos [a, b] v
    omega
  | cons c u ih =>
    have hpre : [a, b].isPrefixOf (c :: (u ++ v)) = [a, b].isPrefixOf (c :: u) := by
      cases hb : [a, b].isPrefixOf (c :: u) with
      | true =>
        obtain ⟨h1, h2⟩ := (isPrefixOf_pair a b c u).mp hb
        apply (isPrefixOf_pair a b c (u ++ v)).mpr
        refine ⟨h1, ?_⟩
        cases u with
        | nil => simp at h2
        | cons d u => simpa using h2
      | false =>
        rw [Bool.eq_false_iff]
        intro hcon
        obtain ⟨h1, h2⟩ := (isPrefixOf_pair a b c (u ++ v)).mp hcon
        apply Bool.eq_false_iff.mp hb
        apply (isPrefixOf_pair a b c u).mpr
        refine ⟨h1, ?_⟩
        cases u with
        | nil =>
          simp only [List.nil_append] at h2
          exact absurd h2 hv
        | cons d u => simpa using h2
    rw [List.cons_append, countPos_cons, countPos_cons, hpre, ih]
    omega

theorem pyIn_eq_countPos (pat : List Char) (hpat : pat ≠ []) (s : List Char) :
    pyIn pat s = decide (0 < countPos pat s) := by
  induction s with
  | nil =>
    cases pat with
    | nil => exact absurd rfl hpat
    | cons p ps => simp [pyIn, countPos, List.isPrefixOf]
  | cons c rest ih =>
    rw [pyIn_cons, countPos_cons]
    cases hp : pat.isPrefixOf (c :: rest) with
    | true => simp
    | false => simp [ih]

theorem pyCountGo_eq_countPos (a b : Char) (hab : a ≠ b) :
    ∀ s : List Char, pyCountGo [a, b] s 0 = countPos [a, b] s
  | [] => rfl
  | [c] => by
    have hpre : ¬ ([a, b].isPrefixOf [c] = true) := by
      simp [List.isPrefixOf]
    rw [pyCountGo_cons_zero, if_neg hpre, countPos_cons, if_neg hpre]
    rfl
  | c :: d :: rest => by
    by_cases h1 : a = c ∧ b = d
    · obtain ⟨h1, h2⟩ := h1
      subst h1
      subst h2
      have hr := pyCountGo_eq_countPos a b hab rest
      have hpre1 : [a, b].isPrefixOf (a :: b :: rest) = true :=
        (isPrefixOf_pair a b a (b :: rest)).mpr ⟨rfl, rfl⟩
      have hpre2 : ¬ ([a, b].isPrefixOf (b :: rest) = true) := fun hcon =>
        hab ((isPrefixOf_pair a b b rest).mp hcon).1
      rw [pyCountGo_cons_zero, if_pos hpre1]
      show 1 + pyCountGo [a, b] (b :: rest) 1 = countPos [a, b] (a :: b :: rest)
      rw [pyCountGo_cons_skip, hr, countPos_cons [a, b] a (b :: rest),
        if_pos hpre1, countPos_cons [a, b] b rest, if_neg hpre2]
      omega
    · have hpre : ¬ ([a, b].isPrefixOf (c :: d :: rest) = true) := by
        intro hcon
        obtain ⟨hx, hy⟩ := (isPrefixOf_pair a b c (d :: rest)).mp hcon
        simp only [List.head?_cons, Option.some.injEq] at hy
        exact h1 ⟨hx, hy.symm⟩
      have hr := pyCountGo_eq_countPos a b hab (d :: rest)
      rw [pyCountGo_cons_zero, if_neg hpre, hr,
        countPos_cons [a, b] c (d :: rest), if_neg hpre]
      omega

theorem pyCount_eq_countPos (a b : Char) (hab : a ≠ b) (s : List Char) :
    pyCount s [a, b] = countPos [a, b] s :=
  pyCountGo_eq_countPos a b hab s

theorem pySplit_no_sep (sep : Char) (u : List Char) (hu : sep ∉ u) :
    pySplit sep u = [u] := by
  induction u with
  | nil => rfl
  | cons c u ih =>
    have hc : ¬ c = sep := fun h => hu (h ▸ List.mem_cons_self c u)
    have hu' : sep ∉ u := fun h => hu (List.mem_cons_of_mem c h)
    have step : pySplit sep (c :: u) =
        if c = sep then [] :: pySplit sep u
        else
          match pySplit sep u with
          | [] => [[c]]
          | g :: gs => (c :: g) :: gs := rfl
    rw [step, if_neg hc, ih hu']

theorem pySplit_append_sep (sep : Char) (u v : List Char) (hu : sep ∉ u) :
    pySplit sep (u ++ sep :: v) = u :: pySplit sep v := by
  induction u with
  | nil =>
    show pySplit sep (sep :: v) = [] :: pySplit sep v
    have step : pySplit sep (sep :: v) =
        if sep = sep then [] :: pySplit sep v
        else
          match pySplit sep v with
          | [] => [[sep]]
          | g :: gs => (sep :: g) :: gs := rfl
    rw [step, if_pos rfl]
  | cons c u ih =>
    have hc : ¬ c = sep := fun h => hu (h ▸ List.mem_cons_self c u)
    have hu' : sep ∉ u := fun h => hu (List.mem_cons_of_mem c h)
    have step : pySplit sep (c :: (u ++ sep :: v)) =
        if c = sep then [] :: pySplit sep (u ++ sep :: v)
        else
          match pySplit sep (u ++ sep :: v) with
          | [] => [[c]]
          | g :: gs => (c :: g) :: gs := rfl
    rw [List.cons_append, step, if_neg hc, ih hu']

/-! ### Order properties of `strLe` -/

theorem char_toNat_inj {a b : Char} (h : a.toNat = b.toNat) : a = b := by
  apply Char.ext
  apply UInt32.ext
  exact h

theorem strLeAux_total : ∀ u v : List Char, strLeAux u v || strLeAux v u
  | [], _ => by simp [strLeAux]
  | _ :: _, [] => by simp [strLeAux]
  | a :: as, b :: bs => by
    by_cases hab : a = b
    · subst hab
      simpa [strLeAux] using strLeAux_total as bs
    · have hne : a.toNat ≠ b.toNat := fun h => hab (char_toNat_inj h)
      have : a.toNat < b.toNat ∨ b.toNat < a.toNat := by omega
      rcases this with h | h <;> simp [strLeAux, hab, Ne.symm hab, h]

theorem strLeAux_trans :
    ∀ u v w : List Char, strLeAux u v = true → strLeAux v w = true →
      strLeAux u w = true
  | [], _, _ => by simp [strLeAux]
  | _ :: _, [], _ => by simp [strLeAux]
  | _ :: _, _ :: _, [] => by simp [strLeAux]
  | a :: as, b :: bs, c :: cs => by
    intro h1 h2
    by_cases hab : a = b <;> by_cases hbc : b = c
    · subst hab; subst hbc
      simp only [strLeAux, if_pos rfl] at h1 h2 ⊢
      exact strLeAux_trans as bs cs h1 h2
    · subst hab
      simpa [strLeAux, hbc] using h2
    · subst hbc
      simpa [strLeAux, hab] using h1
    · simp only [strLeAux, hab, hbc, if_false, decide_eq_true_eq] at h1 h2
      have hac : a.toNat < c.toNat := lt_trans h1 h2
      have hne : a ≠ c := by
        intro h
        rw [h] at h1
        omega
      simp [strLeAux, hne, hac]

instance : IsTotal String strLeP :=
  ⟨fun a b => by
    have := strLeAux_total a.data b.data
    rcases Bool.or_eq_true_iff.mp this with h | h
    · exact Or.inl h
    · exact Or.inr h⟩

instance : IsTrans String strLeP :=
  ⟨fun a b c h1 h2 => strLeAux_trans a.data b.data c.data h1 h2⟩

/-! ### Structured view of the accumulated label string

The label built by the by-segment loop and the deletion fill is always the
basic category followed by dash-separated position tags.  `foldAppend`
re-expresses the string accumulation over a list of `(index, outcome)`
pairs; the lemmas below transfer `pyCount`, `pyIn` and `pySplit` facts about
the accumulated string to that list. -/

inductive TagKind : Type
  | pres : TagKind
  | sub : TagKind
  | del : TagKind
deriving DecidableEq

/-- The body of a position tag, e.g. `C2pres`. -/
def bodyStr (p : Nat × TagKind) : String :=
  tagC p.1 ++
    (match p.2 with
     | TagKind.pres => "pres"
     | TagKind.sub => "sub"
     | TagKind.del => "del")

/-- A position tag as appended to the label, e.g. `-C2pres`. -/
def renderTag (p : Nat × TagKind) : String := "-" ++ bodyStr p

/-- String accumulation of a list of position tags. -/
def foldAppend (e0 : String) (tags : List (Nat × TagKind)) : String :=
  tags.foldl (fun e p => e ++ renderTag p) e0

/-- The three basic categories that can enter the by-segment loop. -/
def isBasic (b : String) : Prop :=
  b = "epenthesis" ∨ b = "reduction" ∨ b = "substitution"

theorem foldAppend_nil (e0 : String) : foldAppend e0 [] = e0 := rfl

theorem foldAppend_cons (e0 : String) (p : Nat × TagKind)
    (tags : List (Nat × TagKind)) :
    foldAppend e0 (p :: tags) = foldAppend (e0 ++ renderTag p) tags := rfl

theorem foldAppend_data :
    ∀ (tags : List (Nat × TagKind)) (x : String),
      (foldAppend x tags).data =
        x.data ++ (tags.map (fun p => (renderTag p).data)).flatten
  | [], x => by simp [foldAppend]
  | p :: tags, x => by
    rw [foldAppend_cons, foldAppend_data tags (x ++ renderTag p)]
    simp [String.data_append]

theorem tagC_pair (i : Nat) (hi : i < 3) :
    ∃ d : Char, (tagC i).data = ['C', d] ∧ d ≠ 'C' ∧ d ≠ '-' := by
  interval_cases i
  · exact ⟨'1', by decide, by decide, by decide⟩
  · exact ⟨'2', by decide, by decide, by decide⟩
  · exact ⟨'3', by decide, by decide, by decide⟩

theorem renderTag_data (p : Nat × TagKind) :
    (renderTag p).data = '-' :: (bodyStr p).data := by
  show (("-" : String) ++ bodyStr p).data = _
  rw [String.data_append]
  rfl

theorem countPos_tagC_renderTag (i j : Nat) (k : TagKind) (hi : i < 3)
    (hj : j < 3) :
    countPos (tagC i).data (renderTag (j, k)).data = if j = i then 1 else 0 := by
  interval_cases i <;> interval_cases j <;> cases k <;> decide

theorem countPos_tagC_basic (i : Nat) (hi : i < 3) (b : String)
    (hb : isBasic b) : countPos (tagC i).data b.data = 0 := by
  rcases hb with h | h | h <;> subst h <;> interval_cases i <;> decide

theorem countPos_tagC_foldAppend (i : Nat) (hi : i < 3) :
    ∀ (tags : List (Nat × TagKind)), (∀ p ∈ tags, p.1 < 3) →
      ∀ e0 : String,
        countPos (tagC i).data (foldAppend e0 tags).data =
          countPos (tagC i).data e0.data +
            tags.countP (fun p => p.1 == i)
  | [], _, e0 => by simp [foldAppend]
  | p :: tags, htags, e0 => by
    obtain ⟨j, k⟩ := p
    have hj : j < 3 := htags (j, k) (List.mem_cons_self _ _)
    have htail : ∀ q ∈ tags, q.1 < 3 := fun q hq =>
      htags q (List.mem_cons_of_mem _ hq)
    obtain ⟨d, hd, hdC, hdDash⟩ := tagC_pair i hi
    have hv : ((renderTag (j, k)).data).head? ≠ some d := by
      rw [renderTag_data]
      simp only [List.head?_cons, ne_eq, Option.some.injEq]
      exact fun h => hdDash h.symm
    have key : countPos (tagC i).data ((e0 ++ renderTag (j, k)).data) =
        countPos (tagC i).data e0.data +
          countPos (tagC i).data (renderTag (j, k)).data := by
      rw [String.data_append, hd]
      exact countPos_append 'C' d _ _ hv
    rw [foldAppend_cons,
      countPos_tagC_foldAppend i hi tags htail (e0 ++ renderTag (j, k)), key,
      countPos_tagC_renderTag i j k hi hj, List.countP_cons]
    simp only [beq_iff_eq]
    by_cases hji : j = i <;> simp [hji] <;> omega

theorem pyCountS_eq_countPos_tagC (i : Nat) (hi : i < 3) (s : String) :
    pyCountS s (tagC i) = countPos (tagC i).data s.data := by
  obtain ⟨d, hd, hdC, _⟩ := tagC_pair i hi
  show pyCount s.data (tagC i).data = _
  rw [hd]
  exact pyCount_eq_countPos 'C' d (fun h => hdC h.symm) s.data

theorem pyInS_eq_countPos_tagC (i : Nat) (hi : i < 3) (s : String) :
    pyInS (tagC i) s = decide (0 < countPos (tagC i).data s.data) := by
  have hne : (tagC i).data ≠ [] := by
    obtain ⟨d, hd, _, _⟩ := tagC_pair i hi
    rw [hd]
    simp
  exact pyIn_eq_countPos (tagC i).data hne s.data

/-! ### Characterization of the nearest-distance scan -/

theorem sdScan_cons {F : Type} (dist : F → F → ℚ) (f : F) (t : F) (ts : List F)
    (best : Nat × ℚ) (idx : Nat) :
    sdScan dist f (t :: ts) best idx =
      sdScan dist f ts
        (if 0 < dist t f ∧ dist t f < best.2 then (idx, dist t f) else best)
        (idx + 1) := rfl

theorem sdScan_fst_bound {F : Type} (dist : F → F → ℚ) (f : F) :
    ∀ (l : List F) (best : Nat × ℚ) (idx : Nat),
      (sdScan dist f l best idx).1 = best.1 ∨
        (idx ≤ (sdScan dist f l best idx).1 ∧
          (sdScan dist f l best idx).1 < idx + l.length)
  | [], _, _ => Or.inl rfl
  | t :: ts, best, idx => by
    rw [sdScan_cons]
    by_cases h : 0 < dist t f ∧ dist t f < best.2
    · rw [if_pos h]
      rcases sdScan_fst_bound dist f ts (idx, dist t f) (idx + 1) with h1 | ⟨h1, h2⟩
      · right
        rw [h1]
        simp only [List.length_cons]
        omega
      · right
        simp only [List.length_cons]
        omega
    · rw [if_neg h]
      rcases sdScan_fst_bound dist f ts best (idx + 1) with h1 | ⟨h1, h2⟩
      · exact Or.inl h1
      · right
        simp only [List.length_cons]
        omega

theorem sdScan_snd_le {F : Type} (dist : F → F → ℚ) (f : F) :
    ∀ (l : List F) (best : Nat × ℚ) (idx : Nat),
      (sdScan dist f l best idx).2 ≤ best.2
  | [], _, _ => le_refl _
  | t :: ts, best, idx => by
    rw [sdScan_cons]
    by_cases h : 0 < dist t f ∧ dist t f < best.2
    · rw [if_pos h]
      calc (sdScan dist f ts (idx, dist t f) (idx + 1)).2 ≤ dist t f :=
            sdScan_snd_le dist f ts (idx, dist t f) (idx + 1)
        _ ≤ best.2 := le_of_lt h.2
    · rw [if_neg h]
      exact sdScan_snd_le dist f ts best (idx + 1)

theorem sdScan_min {F : Type} (dist : F → F → ℚ) (f : F) :
    ∀ (l : List F) (best : Nat × ℚ) (idx : Nat) (j : Nat) (hj : j < l.length),
      0 < dist (l.get ⟨j, hj⟩) f → dist (l.get ⟨j, hj⟩) f < best.2 →
      (sdScan dist f l best idx).2 ≤ dist (l.get ⟨j, hj⟩) f
  | [], _, _, j, hj => by simp at hj
  | t :: ts, best, idx, 0, hj => by
    intro hpos hlt
    rw [sdScan_cons]
    simp only [List.get] at hpos hlt
    rw [if_pos ⟨hpos, hlt⟩]
    exact sdScan_snd_le dist f ts (idx, dist t f) (idx + 1)
  | t :: ts, best, idx, j + 1, hj => by
    intro hpos hlt
    rw [sdScan_cons]
    have hj' : j < ts.length := by simpa using hj
    simp only [List.get] at hpos hlt ⊢
    by_cases h : 0 < dist t f ∧ dist t f < best.2
    · rw [if_pos h]
      by_cases h2 : dist (ts.get ⟨j, hj'⟩) f < dist t f
      · exact sdScan_min dist f ts (idx, dist t f) (idx + 1) j hj' hpos h2
      · calc (sdScan dist f ts (idx, dist t f) (idx + 1)).2 ≤ dist t f :=
              sdScan_snd_le dist f ts (idx, dist t f) (idx + 1)
          _ ≤ dist (ts.get ⟨j, hj'⟩) f := not_lt.mp h2
    · rw [if_neg h]
      exact sdScan_min dist f ts best (idx + 1) j hj' hpos hlt

theorem sdScan_attains {F : Type} (dist : F → F → ℚ) (f : F) :
    ∀ (l : List F) (best : Nat × ℚ) (idx : Nat),
      sdScan dist f l best idx = best ∨
        ∃ j, ∃ hj : j < l.length,
          (sdScan dist f l best idx).1 = idx + j ∧
            (sdScan dist f l best idx).2 = dist (l.get ⟨j, hj⟩) f ∧
            0 < dist (l.get ⟨j, hj⟩) f ∧ dist (l.get ⟨j, hj⟩) f < best.2
  | [], _, _ => Or.inl rfl
  | t :: ts, best, idx => by
    rw [sdScan_cons]
    by_cases h : 0 < dist t f ∧ dist t f < best.2
    · rw [if_pos h]
      rcases sdScan_attains dist f ts (idx, dist t f) (idx + 1) with h1 | h1
      · right
        refine ⟨0, by simp, ?_⟩
        rw [h1]
        simpa using h
      · obtain ⟨j, hj, e1, e2, e3, e4⟩ := h1
        right
        refine ⟨j + 1, by simpa using Nat.succ_lt_succ hj, ?_⟩
        refine ⟨by omega, by simpa using e2, by simpa using e3, ?_⟩
        simp only [List.get]
        calc dist (ts.get ⟨j, hj⟩) f < dist t f := e4
          _ < best.2 := h.2
    · rw [if_neg h]
      rcases sdScan_attains dist f ts best (idx + 1) with h1 | h1
      · exact Or.inl h1
      · obtain ⟨j, hj, e1, e2, e3, e4⟩ := h1
        right
        refine ⟨j + 1, by simpa using Nat.succ_lt_succ hj, ?_⟩
        exact ⟨by omega, by simpa using e2, by simpa using e3, by simpa using e4⟩

theorem sdScan_first {F : Type} (dist : F → F → ℚ) (f : F) :
    ∀ (l : List F) (best : Nat × ℚ) (idx : Nat) (j : Nat) (hj : j < l.length),
      0 < dist (l.get ⟨j, hj⟩) f → dist (l.get ⟨j, hj⟩) f < best.2 →
      dist (l.get ⟨j, hj⟩) f = (sdScan dist f l best idx).2 →
      (sdScan dist f l best idx).1 ≤ idx + j
  | [], _, _, j, hj => by simp at hj
  | t :: ts, best, idx, 0, hj => by
    intro hpos hlt heq
    rw [sdScan_cons] at heq ⊢
    simp only [List.get] at hpos hlt heq
    rw [if_pos ⟨hpos, hlt⟩] at heq ⊢
    rcases sdScan_attains dist f ts (idx, dist t f) (idx + 1) with h1 | h1
    · rw [h1]
      omega
    · obtain ⟨j2, hj2, e1, e2, e3, e4⟩ := h1
      exfalso
      rw [← heq] at e2
      simp only at e4
      rw [← e2] at e4
      exact lt_irrefl _ e4
  | t :: ts, best, idx, j + 1, hj => by
    intro hpos hlt heq
    rw [sdScan_cons] at heq ⊢
    have hj' : j < ts.length := by simpa using hj
    simp only [List.get] at hpos hlt heq ⊢
    by_cases h : 0 < dist t f ∧ dist t f < best.2
    · rw [if_pos h] at heq ⊢
      by_cases h2 : dist (ts.get ⟨j, hj'⟩) f < dist t f
      · have := sdScan_first dist f ts (idx, dist t f) (idx + 1) j hj' hpos h2 heq
        omega
      · have hle : (sdScan dist f ts (idx, dist t f) (idx + 1)).2 ≤ dist t f :=
          sdScan_snd_le dist f ts (idx, dist t f) (idx + 1)
        have heq2 : dist t f = (sdScan dist f ts (idx, dist t f) (idx + 1)).2 := by
          have h3 : dist t f ≤ dist (ts.get ⟨j, hj'⟩) f := not_lt.mp h2
          have h4 : dist t f ≤ (sdScan dist f ts (idx, dist t f) (idx + 1)).2 := by
            rw [← heq]
            exact h3
          exact le_antisymm h4 hle
        rcases sdScan_attains dist f ts (idx, dist t f) (idx + 1) with h1 | h1
        · rw [h1]
          omega
        · obtain ⟨j2, hj2, e1, e2, e3, e4⟩ := h1
          exfalso
          rw [← heq2] at e2
          rw [← e2] at e4
          exact lt_irrefl _ e4
    · rw [if_neg h] at heq ⊢
      have := sdScan_first dist f ts best (idx + 1) j hj' hpos hlt heq
      omega

theorem smallestDist_fst_bound {F : Type} (dist : F → F → ℚ) (t_fts : List F)
    (f : F) :
    (smallestDist dist t_fts f).1 = 0 ∨
      (smallestDist dist t_fts f).1 < t_fts.length := by
  unfold smallestDist
  rcases sdScan_fst_bound dist f t_fts (0, 1) 0 with h | ⟨h1, h2⟩
  · exact Or.inl h
  · right
    omega

/-! ### The by-segment loop as a tag list -/

/-- The `(index, outcome)` pair contributed by one actual segment. -/
def segIdx {F : Type} (fs : FeatureService F) (t_segs : List String)
    (t_fts : List F) (seg : String × F) : Nat × TagKind :=
  if t_segs.contains seg.1 then (t_segs.indexOf seg.1, TagKind.pres)
  else ((smallestDist fs.dist t_fts seg.2).1, TagKind.sub)

/-- The tag list accumulated by the by-segment loop. -/
def bsTags {F : Type} (fs : FeatureService F) (t_segs : List String)
    (t_fts : List F) (a_pairs : List (String × F)) : List (Nat × TagKind) :=
  (a_pairs.filter
      (fun seg => !(fs.syl seg.2 && decide (2 < a_pairs.length)))).map
    (segIdx fs t_segs t_fts)

theorem presTag_eq (idx : Nat) (h : idx < 3) :
    presTag idx = renderTag (idx, TagKind.pres) := by
  interval_cases idx <;> decide

theorem subTag_eq (idx : Nat) (h : idx < 3) :
    subTag idx = renderTag (idx, TagKind.sub) := by
  interval_cases idx <;> decide

theorem segIdx_lt {F : Type} (fs : FeatureService F) (t_segs : List String)
    (t_fts : List F) (seg : String × F) (hk1 : 1 ≤ t_segs.length)
    (hf : t_fts.length ≤ t_segs.length) :
    (segIdx fs t_segs t_fts seg).1 < t_segs.length := by
  unfold segIdx
  by_cases hc : t_segs.contains seg.1
  · rw [if_pos hc]
    exact List.indexOf_lt_length.mpr (by simpa using hc)
  · rw [if_neg hc]
    rcases smallestDist_fst_bound fs.dist t_fts seg.2 with h | h
    · omega
    · omega

theorem segTag_eq_renderTag {F : Type} (fs : FeatureService F)
    (t_segs : List String) (t_fts : List F) (seg : String × F)
    (hk3 : t_segs.length ≤ 3) (hk1 : 1 ≤ t_segs.length)
    (hf : t_fts.length ≤ t_segs.length) :
    segTag fs t_segs t_fts seg = renderTag (segIdx fs t_segs t_fts seg) := by
  have hidx : (segIdx fs t_segs t_fts seg).1 < 3 :=
    lt_of_lt_of_le (segIdx_lt fs t_segs t_fts seg hk1 hf) hk3
  by_cases hc : t_segs.contains seg.1
  · have h2 : segIdx fs t_segs t_fts seg = (t_segs.indexOf seg.1, TagKind.pres) := by
      unfold segIdx
      rw [if_pos hc]
    have h1 : segTag fs t_segs t_fts seg = presTag (t_segs.indexOf seg.1) := by
      unfold segTag
      rw [if_pos hc]
    rw [h2] at hidx ⊢
    rw [h1]
    exact presTag_eq _ hidx
  · have h2 : segIdx fs t_segs t_fts seg =
        ((smallestDist fs.dist t_fts seg.2).1, TagKind.sub) := by
      unfold segIdx
      rw [if_neg hc]
    have h1 : segTag fs t_segs t_fts seg =
        subTag (smallestDist fs.dist t_fts seg.2).1 := by
      unfold segTag
      rw [if_neg hc]
    rw [h2] at hidx ⊢
    rw [h1]
    exact subTag_eq _ hidx

theorem bySegment_aux {F : Type} (fs : FeatureService F)
    (t_segs : List String) (t_fts : List F) (a_pairs : List (String × F))
    (hk3 : t_segs.length ≤ 3) (hk1 : 1 ≤ t_segs.length)
    (hf : t_fts.length ≤ t_segs.length) :
    ∀ (l : List (String × F)) (e0 : String),
      l.foldl
        (fun e seg =>
          if fs.syl seg.2 ∧ 2 < a_pairs.length then e
          else e ++ segTag fs t_segs t_fts seg)
        e0 =
      foldAppend e0
        ((l.filter
            (fun seg => !(fs.syl seg.2 && decide (2 < a_pairs.length)))).map
          (segIdx fs t_segs t_fts))
  | [], e0 => rfl
  | seg :: l, e0 => by
    by_cases h : fs.syl seg.2 ∧ 2 < a_pairs.length
    · have hb : ¬ ((!(fs.syl seg.2 && decide (2 < a_pairs.length))) = true) := by
        simp [h.1, h.2]
      rw [List.foldl_cons, if_pos h, List.filter_cons, if_neg hb,
        bySegment_aux fs t_segs t_fts a_pairs hk3 hk1 hf l e0]
    · have hb : (!(fs.syl seg.2 && decide (2 < a_pairs.length))) = true := by
        rcases not_and_or.mp h with h1 | h1 <;> simp [h1]
      rw [List.foldl_cons, if_neg h, List.filter_cons, if_pos hb, List.map_cons,
        foldAppend_cons,
        bySegment_aux fs t_segs t_fts a_pairs hk3 hk1 hf l _,
        segTag_eq_renderTag fs t_segs t_fts seg hk3 hk1 hf]

theorem bySegment_eq_foldAppend {F : Type} (fs : FeatureService F)
    (t_segs : List String) (t_fts : List F) (a_pairs : List (String × F))
    (e0 : String) (hk3 : t_segs.length ≤ 3) (hk1 : 1 ≤ t_segs.length)
    (hf : t_fts.length ≤ t_segs.length) :
    bySegment fs t_segs t_fts a_pairs e0 =
      foldAppend e0 (bsTags fs t_segs t_fts a_pairs) :=
  bySegment_aux fs t_segs t_fts a_pairs hk3 hk1 hf a_pairs e0

theorem bsTags_lt {F : Type} (fs : FeatureService F) (t_segs : List String)
    (t_fts : List F) (a_pairs : List (String × F)) (hk1 : 1 ≤ t_segs.length)
    (hf : t_fts.length ≤ t_segs.length) :
    ∀ p ∈ bsTags fs t_segs t_fts a_pairs, p.1 < t_segs.length := by
  intro p hp
  obtain ⟨seg, _, rfl⟩ := List.mem_map.mp hp
  exact segIdx_lt fs t_segs t_fts seg hk1 hf


/-! ### The deletion fill and canonicalization in structured form -/

/-- List-level counterpart of the deletion fill. -/
def fillTags (k : Nat) (tags : List (Nat × TagKind)) : List (Nat × TagKind) :=
  (List.range k).foldl
    (fun acc i =>
      if 0 < acc.countP (fun p => p.1 == i) then acc
      else acc ++ [(i, TagKind.del)])
    tags

theorem basic_no_dash (b : String) (hb : isBasic b) : '-' ∉ b.data := by
  rcases hb with h | h | h <;> subst h <;> decide

theorem bodyStr_no_dash (p : Nat × TagKind) (h : p.1 < 3) :
    '-' ∉ (bodyStr p).data := by
  obtain ⟨j, k⟩ := p
  simp only at h
  interval_cases j <;> cases k <;> decide

theorem foldAppend_ne_so (b : String) (hb : isBasic b)
    (tags : List (Nat × TagKind)) :
    foldAppend b tags ≠ "substitution_other" := by
  cases tags with
  | nil => rcases hb with h | h | h <;> subst h <;> decide
  | cons p tags =>
    intro hcon
    have hdash : '-' ∈ (foldAppend b (p :: tags)).data := by
      rw [foldAppend_data]
      apply List.mem_append_right
      rw [List.map_cons, List.flatten_cons]
      apply List.mem_append_left
      rw [renderTag_data]
      exact List.mem_cons_self _ _
    rw [hcon] at hdash
    revert hdash
    decide

theorem renderTag_del (i : Nat) :
    ("-" ++ tagC i ++ "del") = renderTag (i, TagKind.del) := by
  show ("-" ++ tagC i) ++ "del" = "-" ++ bodyStr (i, TagKind.del)
  rw [String.append_assoc]
  rfl

theorem fill_fold_aux (b : String) (hb : isBasic b) :
    ∀ (il : List Nat), (∀ i ∈ il, i < 3) →
      ∀ (tags : List (Nat × TagKind)), (∀ p ∈ tags, p.1 < 3) →
        il.foldl
          (fun acc i =>
            if pyInS (tagC i) acc then acc
            else acc ++ ("-" ++ tagC i ++ "del"))
          (foldAppend b tags) =
        foldAppend b
          (il.foldl
            (fun acc i =>
              if 0 < acc.countP (fun p => p.1 == i) then acc
              else acc ++ [(i, TagKind.del)])
            tags)
  | [], _, tags, _ => rfl
  | i :: il, his, tags, htags => by
    have hi : i < 3 := his i (List.mem_cons_self _ _)
    have htis : ∀ j ∈ il, j < 3 := fun j hj => his j (List.mem_cons_of_mem _ hj)
    have hcond : pyInS (tagC i) (foldAppend b tags) =
        decide (0 < tags.countP (fun p => p.1 == i)) := by
      rw [pyInS_eq_countPos_tagC i hi,
        countPos_tagC_foldAppend i hi tags htags b,
        countPos_tagC_basic i hi b hb]
      simp
    rw [List.foldl_cons, List.foldl_cons, hcond]
    by_cases hc : 0 < tags.countP (fun p => p.1 == i)
    · rw [if_pos (decide_eq_true hc), if_pos hc]
      exact fill_fold_aux b hb il htis tags htags
    · rw [if_neg (by simpa using hc), if_neg hc, renderTag_del i]
      have happ : foldAppend b tags ++ renderTag (i, TagKind.del) =
          foldAppend b (tags ++ [(i, TagKind.del)]) := by
        unfold foldAppend
        rw [List.foldl_append]
        rfl
      rw [happ]
      refine fill_fold_aux b hb il htis (tags ++ [(i, TagKind.del)]) ?_
      intro p hp
      rcases List.mem_append.mp hp with h | h
      · exact htags p h
      · simp only [List.mem_singleton] at h
        subst h
        exact hi

theorem fillDel_eq_fillTags (b : String) (hb : isBasic b) (k : Nat)
    (hk : k ≤ 3) (tags : List (Nat × TagKind))
    (htags : ∀ p ∈ tags, p.1 < 3) :
    fillDel k (foldAppend b tags) = foldAppend b (fillTags k tags) := by
  unfold fillDel fillTags
  rw [if_neg (foldAppend_ne_so b hb tags)]
  exact fill_fold_aux b hb (List.range k)
    (fun i hi => lt_of_lt_of_le (List.mem_range.mp hi) hk) tags htags

theorem fillGo_countP_ne :
    ∀ (il : List Nat) (tags : List (Nat × TagKind)) (i : Nat), i ∉ il →
      ((il.foldl
          (fun acc j =>
            if 0 < acc.countP (fun p => p.1 == j) then acc
            else acc ++ [(j, TagKind.del)])
          tags).countP (fun p => p.1 == i)) =
        tags.countP (fun p => p.1 == i)
  | [], _, _, _ => rfl
  | j :: il, tags, i, hni => by
    have hji : j ≠ i := fun h => hni (h ▸ List.mem_cons_self _ _)
    have hni' : i ∉ il := fun h => hni (List.mem_cons_of_mem _ h)
    rw [List.foldl_cons]
    by_cases hc : 0 < tags.countP (fun p => p.1 == j)
    · rw [if_pos hc]
      exact fillGo_countP_ne il tags i hni'
    · rw [if_neg hc, fillGo_countP_ne il _ i hni', List.countP_append]
      simp [hji]

theorem fillGo_countP_mem :
    ∀ (il : List Nat), il.Nodup →
      ∀ (tags : List (Nat × TagKind)) (i : Nat), i ∈ il →
        ((il.foldl
            (fun acc j =>
              if 0 < acc.countP (fun p => p.1 == j) then acc
              else acc ++ [(j, TagKind.del)])
            tags).countP (fun p => p.1 == i)) =
          if tags.countP (fun p => p.1 == i) = 0 then 1
          else tags.countP (fun p => p.1 == i)
  | [], _, _, i, hmem => absurd hmem (List.not_mem_nil i)
  | j :: il, hnd, tags, i, hmem => by
    have hnd' : il.Nodup := (List.nodup_cons.mp hnd).2
    rw [List.foldl_cons]
    by_cases hij : i = j
    · subst hij
      have hni : i ∉ il := (List.nodup_cons.mp hnd).1
      by_cases hc : 0 < tags.countP (fun p => p.1 == i)
      · have h0 : ¬ (tags.countP (fun p => p.1 == i) = 0) := by omega
        rw [if_pos hc, fillGo_countP_ne il tags i hni, if_neg h0]
      · have h0 : tags.countP (fun p => p.1 == i) = 0 := by omega
        rw [if_neg hc, fillGo_countP_ne il _ i hni, List.countP_append, h0,
          if_pos rfl]
        simp
    · have hmem' : i ∈ il := by
        rcases List.mem_cons.mp hmem with h | h
        · exact absurd h hij
        · exact h
      by_cases hc : 0 < tags.countP (fun p => p.1 == j)
      · rw [if_pos hc]
        exact fillGo_countP_mem il hnd' tags i hmem'
      · have hji : ¬ (j = i) := fun h => hij h.symm
        have hzero : List.countP (fun p => p.1 == i) [(j, TagKind.del)] = 0 := by
          simp [hji]
        rw [if_neg hc, fillGo_countP_mem il hnd' _ i hmem',
          List.countP_append, hzero]
        simp

theorem fillGo_bound :
    ∀ (il : List Nat) (tags : List (Nat × TagKind)) (m : Nat),
      (∀ p ∈ tags, p.1 < m) → (∀ i ∈ il, i < m) →
      ∀ p ∈ il.foldl
          (fun acc j =>
            if 0 < acc.countP (fun q => q.1 == j) then acc
            else acc ++ [(j, TagKind.del)])
          tags, p.1 < m
  | [], tags, m, htags, _ => htags
  | j :: il, tags, m, htags, his => by
    have hj : j < m := his j (List.mem_cons_self _ _)
    have htis : ∀ i ∈ il, i < m := fun i hi => his i (List.mem_cons_of_mem _ hi)
    rw [List.foldl_cons]
    by_cases hc : 0 < tags.countP (fun q => q.1 == j)
    · rw [if_pos hc]
      exact fillGo_bound il tags m htags htis
    · rw [if_neg hc]
      refine fillGo_bound il _ m ?_ htis
      intro p hp
      rcases List.mem_append.mp hp with h | h
      · exact htags p h
      · simp only [List.mem_singleton] at h
        subst h
        exact hj

theorem fillTags_countP (k : Nat) (tags : List (Nat × TagKind)) (i : Nat)
    (hik : i < k) :
    (fillTags k tags).countP (fun p => p.1 == i) =
      if tags.countP (fun p => p.1 == i) = 0 then 1
      else tags.countP (fun p => p.1 == i) :=
  fillGo_countP_mem (List.range k) (List.nodup_range k) tags i
    (List.mem_range.mpr hik)

theorem fillTags_bound (k : Nat) (tags : List (Nat × TagKind)) (m : Nat)
    (hkm : k ≤ m) (htags : ∀ p ∈ tags, p.1 < m) :
    ∀ p ∈ fillTags k tags, p.1 < m :=
  fillGo_bound (List.range k) tags m htags
    (fun i hi => lt_of_lt_of_le (List.mem_range.mp hi) hkm)

theorem hasConflict_eq_false_iff (k : Nat) (hk : k ≤ 3) (b : String)
    (hb : isBasic b) (tags : List (Nat × TagKind))
    (htags : ∀ p ∈ tags, p.1 < 3) :
    hasConflict k (foldAppend b tags) = false ↔
      ∀ i < k, tags.countP (fun p => p.1 == i) ≤ 1 := by
  unfold hasConflict
  rw [List.any_eq_false]
  constructor
  · intro h i hik
    have := h i (List.mem_range.mpr hik)
    have hi : i < 3 := lt_of_lt_of_le hik hk
    rw [pyCountS_eq_countPos_tagC i hi,
      countPos_tagC_foldAppend i hi tags htags b,
      countPos_tagC_basic i hi b hb] at this
    simpa using this
  · intro h i hmem
    have hik := List.mem_range.mp hmem
    have hi : i < 3 := lt_of_lt_of_le hik hk
    rw [pyCountS_eq_countPos_tagC i hi,
      countPos_tagC_foldAppend i hi tags htags b,
      countPos_tagC_basic i hi b hb]
    simpa using h i hik

theorem pySplit_chunks :
    ∀ (tags : List (Nat × TagKind)), (∀ p ∈ tags, p.1 < 3) →
      ∀ (u : List Char), '-' ∉ u →
        pySplit '-' (u ++ (tags.map (fun p => (renderTag p).data)).flatten) =
          u :: tags.map (fun p => (bodyStr p).data)
  | [], _, u, hu => by
    simp [pySplit_no_sep '-' u hu]
  | p :: tags, htags, u, hu => by
    have hp1 : p.1 < 3 := htags p (List.mem_cons_self _ _)
    have htail : ∀ q ∈ tags, q.1 < 3 := fun q hq =>
      htags q (List.mem_cons_of_mem _ hq)
    rw [List.map_cons, List.flatten_cons, renderTag_data, List.cons_append,
      pySplit_append_sep '-' u _ hu,
      pySplit_chunks tags htail (bodyStr p).data (bodyStr_no_dash p hp1),
      List.map_cons]

theorem pySplitS_foldAppend (b : String) (hb : isBasic b)
    (tags : List (Nat × TagKind)) (htags : ∀ p ∈ tags, p.1 < 3) :
    pySplitS (foldAppend b tags) = b :: tags.map bodyStr := by
  unfold pySplitS
  rw [foldAppend_data, pySplit_chunks tags htags b.data (basic_no_dash b hb),
    List.map_cons, List.map_map]
  rfl

theorem headPart_foldAppend (b : String) (hb : isBasic b)
    (tags : List (Nat × TagKind)) (htags : ∀ p ∈ tags, p.1 < 3) :
    headPart (foldAppend b tags) = b := by
  unfold headPart
  rw [pySplitS_foldAppend b hb tags htags]
  rfl

theorem canonicalize_foldAppend (b : String) (hb : isBasic b)
    (tags : List (Nat × TagKind)) (htags : ∀ p ∈ tags, p.1 < 3) :
    canonicalize (foldAppend b tags) =
      b ++ "-" ++
        "-".intercalate (List.insertionSort strLeP (tags.map bodyStr)) := by
  unfold canonicalize
  rw [pySplitS_foldAppend b hb tags htags]
  rfl

/-! ### The cluster branch, assembled -/

theorem tagC_prefix_bodyStr (i : Nat) (p : Nat × TagKind) (hi : i < 3)
    (hp : p.1 < 3) :
    ((tagC i).data.isPrefixOf (bodyStr p).data) = (p.1 == i) := by
  obtain ⟨j, k⟩ := p
  simp only at hp
  interval_cases i <;> interval_cases j <;> cases k <;> decide

theorem cluster_result {F : Type} (fs : FeatureService F)
    (t_segs : List String) (t_fts : List F) (a_pairs : List (String × F))
    (e0 : String) (hb : isBasic e0) (hk1 : 1 ≤ t_segs.length)
    (hk3 : t_segs.length ≤ 3) (hf : t_fts.length ≤ t_segs.length) :
    headPart (bySegment fs t_segs t_fts a_pairs e0) = e0 ∧
      (hasConflict t_segs.length (bySegment fs t_segs t_fts a_pairs e0) =
          false →
        ∃ ts : List String,
          canonicalize
              (fillDel t_segs.length (bySegment fs t_segs t_fts a_pairs e0)) =
            e0 ++ "-" ++ "-".intercalate ts ∧
          List.Sorted strLeP ts ∧
          (∀ i < t_segs.length,
            ts.countP (fun s => (tagC i).data.isPrefixOf s.data) = 1) ∧
          (∀ s ∈ ts, ∃ i < t_segs.length,
            (tagC i).data.isPrefixOf s.data = true)) := by
  have htlt : ∀ p ∈ bsTags fs t_segs t_fts a_pairs, p.1 < t_segs.length :=
    bsTags_lt fs t_segs t_fts a_pairs hk1 hf
  have ht3 : ∀ p ∈ bsTags fs t_segs t_fts a_pairs, p.1 < 3 := fun p hp =>
    lt_of_lt_of_le (htlt p hp) hk3
  have hbs : bySegment fs t_segs t_fts a_pairs e0 =
      foldAppend e0 (bsTags fs t_segs t_fts a_pairs) :=
    bySegment_eq_foldAppend fs t_segs t_fts a_pairs e0 hk3 hk1 hf
  have hftlt : ∀ p ∈ fillTags t_segs.length (bsTags fs t_segs t_fts a_pairs),
      p.1 < t_segs.length :=
    fillTags_bound t_segs.length _ t_segs.length le_rfl htlt
  have hft3 : ∀ p ∈ fillTags t_segs.length (bsTags fs t_segs t_fts a_pairs),
      p.1 < 3 := fun p hp => lt_of_lt_of_le (hftlt p hp) hk3
  constructor
  · rw [hbs]
    exact headPart_foldAppend e0 hb _ ht3
  · intro hcf
    rw [hbs] at hcf
    have hcnt := (hasConflict_eq_false_iff t_segs.length hk3 e0 hb _ ht3).mp hcf
    refine ⟨List.insertionSort strLeP
      ((fillTags t_segs.length (bsTags fs t_segs t_fts a_pairs)).map bodyStr),
      ?_, ?_, ?_, ?_⟩
    · rw [hbs, fillDel_eq_fillTags e0 hb t_segs.length hk3 _ ht3]
      exact canonicalize_foldAppend e0 hb _ hft3
    · exact List.sorted_insertionSort strLeP _
    · intro i hik
      have hi3 : i < 3 := lt_of_lt_of_le hik hk3
      rw [(List.perm_insertionSort strLeP _).countP_eq, List.countP_map]
      have hcg : List.countP
          ((fun s => (tagC i).data.isPrefixOf s.data) ∘ bodyStr)
          (fillTags t_segs.length (bsTags fs t_segs t_fts a_pairs)) =
          List.countP (fun p => p.1 == i)
            (fillTags t_segs.length (bsTags fs t_segs t_fts a_pairs)) := by
        apply List.countP_congr
        intro p hp
        have hpe := tagC_prefix_bodyStr i p hi3 (hft3 p hp)
        simp only [Function.comp_apply, hpe]
      rw [hcg, fillTags_countP t_segs.length _ i hik]
      have := hcnt i hik
      by_cases h0 : List.countP (fun p => p.1 == i)
          (bsTags fs t_segs t_fts a_pairs) = 0
      · rw [if_pos h0]
      · rw [if_neg h0]
        omega
    · intro s hs
      have hs2 : s ∈ (fillTags t_segs.length
          (bsTags fs t_segs t_fts a_pairs)).map bodyStr :=
        (List.perm_insertionSort strLeP _).mem_iff.mp hs
      obtain ⟨p, hp, rfl⟩ := List.mem_map.mp hs2
      refine ⟨p.1, hftlt p hp, ?_⟩
      rw [tagC_prefix_bodyStr p.1 p (hft3 p hp) (hft3 p hp)]
      simp

theorem clusterTail_false {F : Type} (fs : FeatureService F)
    (t_segs : List String) (t_fts : List F) (a_pairs : List (String × F))
    (e0 : String) (hb : isBasic e0) (hk1 : 1 ≤ t_segs.length)
    (hk3 : t_segs.length ≤ 3) (hf : t_fts.length ≤ t_segs.length) :
    clusterTail fs t_segs t_fts a_pairs false e0 = e0 ++ "_other" ∨
      ∃ ts : List String,
        clusterTail fs t_segs t_fts a_pairs false e0 =
          e0 ++ "-" ++ "-".intercalate ts ∧
        List.Sorted strLeP ts ∧
        (∀ i < t_segs.length,
          ts.countP (fun s => (tagC i).data.isPrefixOf s.data) = 1) ∧
        (∀ s ∈ ts, ∃ i < t_segs.length,
          (tagC i).data.isPrefixOf s.data = true) := by
  obtain ⟨hhead, hmain⟩ := cluster_result fs t_segs t_fts a_pairs e0 hb hk1 hk3 hf
  unfold clusterTail
  by_cases hc : hasConflict t_segs.length (bySegment fs t_segs t_fts a_pairs e0) = true
  · left
    rw [if_pos hc, if_neg (by simp), hhead]
  · right
    obtain ⟨ts, h1, h2, h3, h4⟩ := hmain (Bool.not_eq_true _ ▸ hc)
    rw [if_neg hc, h1]
    exact ⟨ts, rfl, h2, h3, h4⟩

/-- C2 (amended): for every target with two or three segments whose feature
vectors are aligned with its segments, a label returned by `error_pattern`
(non-debug) that contains position tags (a `-`) consists of a basic category
in {epenthesis, reduction, substitution} followed by the position tags sorted
alphabetically and joined by `-`, with exactly one tag per target position
`1..k` and no tag for any other position. -/
theorem c2_resolved_label_positions {F : Type} (fs : FeatureService F)
    (target actual0 lbl : String)
    (hk2 : 2 ≤ (fs.ipa_segs target).length)
    (hk3 : (fs.ipa_segs target).length ≤ 3)
    (halign : (fs.word_fts target).length = (fs.ipa_segs target).length)
    (hres : error_pattern fs target actual0 false = some lbl)
    (hdash : '-' ∈ lbl.data) :
    ∃ b ts, isBasic b ∧
      lbl = b ++ "-" ++ "-".intercalate ts ∧
      List.Sorted strLeP ts ∧
      (∀ i < (fs.ipa_segs target).length,
        ts.countP (fun s => (tagC i).data.isPrefixOf s.data) = 1) ∧
      (∀ s ∈ ts, ∃ i < (fs.ipa_segs target).length,
        (tagC i).data.isPrefixOf s.data = true) := by
  have hk1 : 1 ≤ (fs.ipa_segs target).length := le_trans (by omega) hk2
  have hf : (fs.word_fts target).length ≤ (fs.ipa_segs target).length :=
    le_of_eq halign
  simp only [error_pattern] at hres
  by_cases h1 : replaceSchwa actual0 = "∅"
  · rw [if_pos h1] at hres
    injection hres with hres
    subst hres
    exact absurd hdash (by decide)
  rw [if_neg h1] at hres
  by_cases h2 : replaceSchwa actual0 = "nan"
  · rw [if_pos h2] at hres
    injection hres with hres
    subst hres
    exact absurd hdash (by decide)
  rw [if_neg h2] at hres
  by_cases h3 : fs.ipa_segs (replaceSchwa actual0) = ["∅"] ∨
      (fs.ipa_segs (replaceSchwa actual0)).length = 0
  · rw [if_pos h3] at hres
    injection hres with hres
    subst hres
    exact absurd hdash (by decide)
  rw [if_neg h3] at hres
  by_cases h4 : fs.ipa_segs target = fs.ipa_segs (replaceSchwa actual0)
  · rw [if_pos h4] at hres
    injection hres with hres
    subst hres
    exact absurd hdash (by decide)
  rw [if_neg h4] at hres
  by_cases h5 : target.length = 0
  · rw [if_pos h5] at hres
    exact Option.noConfusion hres
  rw [if_neg h5] at hres
  by_cases h6 : target.length = 1
  · rw [if_pos h6] at hres
    by_cases h6a : (fs.ipa_segs target).length =
        (fs.ipa_segs (replaceSchwa actual0)).length
    · rw [if_pos h6a] at hres
      injection hres with hres
      subst hres
      exact absurd hdash (by decide)
    · rw [if_neg h6a] at hres
      injection hres with hres
      subst hres
      exact absurd hdash (by decide)
  rw [if_neg h6] at hres
  by_cases h7 : 2 ≤ target.length ∧ target.length ≤ 3
  swap
  · rw [if_neg h7] at hres
    exact Option.noConfusion hres
  rw [if_pos h7] at hres
  have main : ∀ e0 : String, isBasic e0 →
      clusterTail fs (fs.ipa_segs target) (fs.word_fts target)
          ((fs.ipa_segs (replaceSchwa actual0)).zip
            (fs.word_fts (replaceSchwa actual0))) false e0 = lbl →
      ∃ b ts, isBasic b ∧
        lbl = b ++ "-" ++ "-".intercalate ts ∧
        List.Sorted strLeP ts ∧
        (∀ i < (fs.ipa_segs target).length,
          ts.countP (fun s => (tagC i).data.isPrefixOf s.data) = 1) ∧
        (∀ s ∈ ts, ∃ i < (fs.ipa_segs target).length,
          (tagC i).data.isPrefixOf s.data = true) := by
    intro e0 hb htail
    rcases clusterTail_false fs (fs.ipa_segs target) (fs.word_fts target)
        ((fs.ipa_segs (replaceSchwa actual0)).zip
          (fs.word_fts (replaceSchwa actual0))) e0 hb hk1 hk3 hf with
      hcase | ⟨ts, heq, hsort, hcnt, hcov⟩
    · rw [htail] at hcase
      subst hcase
      exfalso
      rcases hb with h | h | h <;> subst h <;> exact absurd hdash (by decide)
    · rw [htail] at heq
      exact ⟨e0, ts, hb, heq, hsort, hcnt, hcov⟩
  by_cases hEQ : (fs.ipa_segs (replaceSchwa actual0)).length =
      (fs.ipa_segs target).length
  · rw [if_pos hEQ] at hres
    have hres2 : some (clusterTail fs (fs.ipa_segs target)
        (fs.word_fts target)
        ((fs.ipa_segs (replaceSchwa actual0)).zip
          (fs.word_fts (replaceSchwa actual0))) false "substitution") =
        some lbl := hres
    injection hres2 with hres2
    exact main "substitution" (Or.inr (Or.inr rfl)) hres2
  rw [if_neg hEQ] at hres
  by_cases hLT : (fs.ipa_segs (replaceSchwa actual0)).length <
      (fs.ipa_segs target).length
  · rw [if_pos hLT] at hres
    have hres2 : some (clusterTail fs (fs.ipa_segs target)
        (fs.word_fts target)
        ((fs.ipa_segs (replaceSchwa actual0)).zip
          (fs.word_fts (replaceSchwa actual0))) false "reduction") =
        some lbl := hres
    injection hres2 with hres2
    exact main "reduction" (Or.inr (Or.inl rfl)) hres2
  rw [if_neg hLT] at hres
  by_cases hANY : ((fs.ipa_segs (replaceSchwa actual0)).zip
      (fs.word_fts (replaceSchwa actual0))).any
      (fun seg => fs.syl seg.2 ∧
        2 < ((fs.ipa_segs (replaceSchwa actual0)).zip
          (fs.word_fts (replaceSchwa actual0))).length)
  · rw [if_pos hANY] at hres
    have hres2 : some (clusterTail fs (fs.ipa_segs target)
        (fs.word_fts target)
        ((fs.ipa_segs (replaceSchwa actual0)).zip
          (fs.word_fts (replaceSchwa actual0))) false "epenthesis") =
        some lbl := hres
    injection hres2 with hres2
    exact main "epenthesis" (Or.inl rfl) hres2
  · rw [if_neg hANY] at hres
    injection hres with hres
    subst hres
    exact absurd hdash (by decide)

/-! ### Claim theorems: degenerate checks and the quantifier -/

/-- C5: whenever the (schwa-normalized) actual passes the sentinel and
empty-segmentation checks and its segment sequence equals the target's,
`error_pattern` returns `accurate`, and `error_quantifier` maps `accurate`
to `full_correct_value` for every weight configuration. -/
theorem c5_accurate_when_equal {F : Type} (fs : FeatureService F)
    (target actual0 : String) (debug : Bool)
    (h1 : replaceSchwa actual0 ≠ "∅") (h2 : replaceSchwa actual0 ≠ "nan")
    (h3 : fs.ipa_segs (replaceSchwa actual0) ≠ ["∅"])
    (h4 : (fs.ipa_segs (replaceSchwa actual0)).length ≠ 0)
    (heq : fs.ipa_segs target = fs.ipa_segs (replaceSchwa actual0)) :
    error_pattern fs target actual0 debug = some "accurate" ∧
      ∀ fcv fdv fsv csv ssv ep : ℚ,
        error_quantifier (some "accurate") fcv fdv fsv csv ssv ep = fcv := by
  constructor
  · simp only [error_pattern]
    rw [if_neg h1, if_neg h2, if_neg (not_or.mpr ⟨h3, h4⟩), if_pos heq]
  · intro fcv fdv fsv csv ssv ep
    rfl

/-- Witness for C5 at a concrete input of the example feature service. -/
theorem c5_accurate_when_equal_witness :
    (replaceSchwa "bj" ≠ "∅" ∧ replaceSchwa "bj" ≠ "nan" ∧
      exFS.ipa_segs (replaceSchwa "bj") ≠ ["∅"] ∧
      (exFS.ipa_segs (replaceSchwa "bj")).length ≠ 0 ∧
      exFS.ipa_segs "bj" = exFS.ipa_segs (replaceSchwa "bj")) ∧
    error_pattern exFS "bj" "bj" false = some "accurate" ∧
    error_quantifier_defaults (some "accurate") = 1 :=
  ⟨⟨by decide, by decide, by decide, by decide, by decide⟩,
    (c5_accurate_when_equal exFS "bj" "bj" false (by decide) (by decide)
      (by decide) (by decide) (by decide)).1,
    (c5_accurate_when_equal exFS "bj" "bj" false (by decide) (by decide)
      (by decide) (by decide) (by decide)).2 1 0 (3 / 5) 1 (3 / 5)
      (-(3 / 10))⟩

/-- C6: for every feature service and every target, an actual equal to the
sentinel `∅` or to the placeholder `nan` makes `error_pattern` return
`deletion` immediately — the quantification over every feature service
witnesses that no segmentation is consulted — and `error_quantifier` maps
`deletion` to `full_deletion_value`. -/
theorem c6_sentinel_deletion {F : Type} (fs : FeatureService F)
    (target : String) (debug : Bool) :
    error_pattern fs target "∅" debug = some "deletion" ∧
      error_pattern fs target "nan" debug = some "deletion" ∧
      ∀ fcv fdv fsv csv ssv ep : ℚ,
        error_quantifier (some "deletion") fcv fdv fsv csv ssv ep = fdv := by
  refine ⟨?_, ?_, ?_⟩
  · simp only [error_pattern]
    rw [if_pos (by decide)]
  · simp only [error_pattern]
    rw [if_neg (by decide), if_pos (by decide)]
  · intro fcv fdv fsv csv ssv ep
    rfl

/-- C8: the whole-label shortcuts of `error_quantifier`, its determinism,
and the default-weight values for `accurate` and `deletion`. -/
theorem c8_quantifier_shortcuts :
    (∀ fcv fdv fsv csv ssv ep : ℚ,
      error_quantifier (some "accurate") fcv fdv fsv csv ssv ep = fcv ∧
      error_quantifier (some "deletion") fcv fdv fsv csv ssv ep = fdv ∧
      error_quantifier (some "substitution") fcv fdv fsv csv ssv ep = fsv ∧
      error_quantifier (some "substitution_other") fcv fdv fsv csv ssv ep =
        fsv ∧
      error_quantifier (some "epenthesis_other") fcv fdv fsv csv ssv ep =
        fcv + ep) ∧
    (∀ x fcv fdv fsv csv ssv ep,
      error_quantifier x fcv fdv fsv csv ssv ep =
        error_quantifier x fcv fdv fsv csv ssv ep) ∧
    error_quantifier_defaults (some "accurate") = 1 ∧
    error_quantifier_defaults (some "deletion") = 0 := by
  refine ⟨?_, fun _ _ _ _ _ _ _ => rfl, by decide, by decide⟩
  intro fcv fdv fsv csv ssv ep
  refine ⟨rfl, rfl, ?_, ?_, ?_⟩
  · show (0 : ℚ) + fsv = fsv
    rw [zero_add]
  · show (0 : ℚ) + fsv = fsv
    rw [zero_add]
  · show (0 : ℚ) + fcv + ep = fcv + ep
    rw [zero_add]

/-! ### Claim C4: the deletion fill -/

theorem pyIn_nil_pat (s : List Char) : pyIn [] s = true := by
  cases s <;> simp [pyIn, List.isPrefixOf]

theorem pyIn_append_right (pat u v : List Char) (h : pyIn pat v = true) :
    pyIn pat (u ++ v) = true := by
  induction u with
  | nil => simpa
  | cons c u ih =>
    rw [List.cons_append, pyIn_cons]
    simp [ih]

theorem isPrefixOf_append_left (pat u v : List Char)
    (h : pat.isPrefixOf u = true) : pat.isPrefixOf (u ++ v) = true := by
  have h1 : pat <+: u := by simpa [← List.isPrefixOf_iff_prefix] using h
  have h2 : pat <+: u ++ v := h1.trans (List.prefix_append u v)
  simpa [← List.isPrefixOf_iff_prefix] using h2

theorem pyIn_append_left (pat u v : List Char) (h : pyIn pat u = true) :
    pyIn pat (u ++ v) = true := by
  induction u with
  | nil =>
    have hp : pat = [] := by
      cases pat with
      | nil => rfl
      | cons p ps => simp [pyIn, List.isPrefixOf] at h
    subst hp
    exact pyIn_nil_pat v
  | cons c u ih =>
    rw [List.cons_append, pyIn_cons]
    rw [pyIn_cons] at h
    rcases Bool.or_eq_true_iff.mp h with h1 | h1
    · have h2 := isPrefixOf_append_left pat (c :: u) v h1
      rw [List.cons_append] at h2
      simp [h2]
    · simp [ih h1]

theorem fillFold_mono (pat : String) :
    ∀ (il : List Nat) (x : String), pyInS pat x = true →
      pyInS pat
        (il.foldl
          (fun acc i =>
            if pyInS (tagC i) acc then acc
            else acc ++ ("-" ++ tagC i ++ "del"))
          x) = true
  | [], _, h => h
  | i :: il, x, h => by
    rw [List.foldl_cons]
    by_cases hc : pyInS (tagC i) x
    · rw [if_pos hc]
      exact fillFold_mono pat il x h
    · rw [if_neg hc]
      refine fillFold_mono pat il _ ?_
      unfold pyInS at h ⊢
      rw [String.data_append]
      exact pyIn_append_left pat.data x.data _ h

theorem fillFold_contains :
    ∀ (il : List Nat), (∀ j ∈ il, j < 3) → ∀ (x : String) (i : Nat),
      i ∈ il →
      pyInS (tagC i)
        (il.foldl
          (fun acc j =>
            if pyInS (tagC j) acc then acc
            else acc ++ ("-" ++ tagC j ++ "del"))
          x) = true
  | [], _, _, i, him => absurd him (List.not_mem_nil i)
  | j :: il, hjs, x, i, him => by
    have htail : ∀ q ∈ il, q < 3 := fun q hq => hjs q (List.mem_cons_of_mem _ hq)
    rw [List.foldl_cons]
    rcases List.mem_cons.mp him with rfl | hmem
    · by_cases hc : pyInS (tagC i) x
      · rw [if_pos hc]
        exact fillFold_mono (tagC i) il x hc
      · rw [if_neg hc]
        apply fillFold_mono
        unfold pyInS
        rw [String.data_append]
        apply pyIn_append_right
        have hi : i < 3 := hjs i (List.mem_cons_self _ _)
        interval_cases i <;> decide
    · by_cases hc : pyInS (tagC j) x
      · rw [if_pos hc]
        exact fillFold_contains il htail x i hmem
      · rw [if_neg hc]
        exact fillFold_contains il htail _ i hmem

theorem fillFold_del :
    ∀ (il : List Nat), (∀ j ∈ il, j < 3) → il.Nodup →
      ∀ (x : String) (i : Nat), i ∈ il → pyInS (tagC i) x = false →
      pyInS (tagC i ++ "del")
        (il.foldl
          (fun acc j =>
            if pyInS (tagC j) acc then acc
            else acc ++ ("-" ++ tagC j ++ "del"))
          x) = true
  | [], _, _, _, i, him, _ => absurd him (List.not_mem_nil i)
  | j :: il, hjs, hnd, x, i, him, hfalse => by
    have htail : ∀ q ∈ il, q < 3 := fun q hq => hjs q (List.mem_cons_of_mem _ hq)
    have hnd' : il.Nodup := (List.nodup_cons.mp hnd).2
    rw [List.foldl_cons]
    rcases List.mem_cons.mp him with rfl | hmem
    · rw [if_neg (by simp [hfalse])]
      apply fillFold_mono
      unfold pyInS
      rw [String.data_append]
      apply pyIn_append_right
      have hi : i < 3 := hjs i (List.mem_cons_self _ _)
      interval_cases i <;> decide
    · have hji : j ≠ i := fun h => (List.nodup_cons.mp hnd).1 (h ▸ hmem)
      by_cases hc : pyInS (tagC j) x
      · rw [if_pos hc]
        exact fillFold_del il htail hnd' x i hmem hfalse
      · rw [if_neg hc]
        refine fillFold_del il htail hnd' _ i hmem ?_
        have hi : i < 3 := htail i hmem
        have hj : j < 3 := hjs j (List.mem_cons_self _ _)
        rw [pyInS_eq_countPos_tagC i hi] at hfalse ⊢
        obtain ⟨d, hd, hdC, hdD⟩ := tagC_pair i hi
        have hv : ((renderTag (j, TagKind.del)).data).head? ≠ some d := by
          rw [renderTag_data]
          simp only [List.head?_cons, ne_eq, Option.some.injEq]
          exact fun h => hdD h.symm
        have key : countPos (tagC i).data
            ((x ++ ("-" ++ tagC j ++ "del")).data) =
            countPos (tagC i).data x.data +
              countPos (tagC i).data (renderTag (j, TagKind.del)).data := by
          rw [renderTag_del j, String.data_append, hd]
          exact countPos_append 'C' d _ _ hv
        rw [key, countPos_tagC_renderTag i j TagKind.del hi hj, if_neg hji]
        simp only [decide_eq_false_iff_not, not_lt, Nat.le_zero] at hfalse ⊢
        omega

/-- C4: after a conflict-free scan, the deletion-fill step returns a label
equal to `substitution_other` unchanged, and otherwise tags `del` every
target index whose `C{i+1}` does not yet occur in the accumulated label,
whatever the basic category. -/
theorem c4_fill_deletions (k : Nat) (hk : k ≤ 3) (e : String) :
    (e = "substitution_other" → fillDel k e = e) ∧
    (e ≠ "substitution_other" →
      (∀ i < k, pyInS (tagC i) (fillDel k e) = true) ∧
      (∀ i < k, pyInS (tagC i) e = false →
        pyInS (tagC i ++ "del") (fillDel k e) = true)) := by
  constructor
  · intro h
    subst h
    unfold fillDel
    rw [if_pos rfl]
  · intro hne
    have hbound : ∀ j ∈ List.range k, j < 3 := fun j hj =>
      lt_of_lt_of_le (List.mem_range.mp hj) hk
    constructor
    · intro i hik
      unfold fillDel
      rw [if_neg hne]
      exact fillFold_contains (List.range k) hbound e i (List.mem_range.mpr hik)
    · intro i hik hfalse
      unfold fillDel
      rw [if_neg hne]
      exact fillFold_del (List.range k) hbound (List.nodup_range k) e i
        (List.mem_range.mpr hik) hfalse

/-- Witness for C4 at concrete labels. -/
theorem c4_fill_deletions_witness :
    ((2 : Nat) ≤ 3 ∧ "reduction-C1pres" ≠ "substitution_other" ∧ (1 : Nat) < 2 ∧
      pyInS (tagC 1) "reduction-C1pres" = false) ∧
    fillDel 2 "substitution_other" = "substitution_other" ∧
    pyInS (tagC 1) (fillDel 2 "reduction-C1pres") = true ∧
    pyInS (tagC 1 ++ "del") (fillDel 2 "reduction-C1pres") = true :=
  ⟨⟨by decide, by decide, by decide, by decide⟩,
    (c4_fill_deletions 2 (by decide) "substitution_other").1 rfl,
    ((c4_fill_deletions 2 (by decide) "reduction-C1pres").2 (by decide)).1 1
      (by decide),
    ((c4_fill_deletions 2 (by decide) "reduction-C1pres").2 (by decide)).2 1
      (by decide) (by decide)⟩

/-! ### Claims C1 and C2: counterexamples and witnesses -/

/-- Counterexample to C2 as stated: a two-segment target whose actual is
segment-for-segment identical yields the resolved, non-`other` label
`accurate`, which covers no position at all. -/
theorem c2_counterexample :
    (exFS.ipa_segs "bj").length = 2 ∧
    error_pattern exFS "bj" "bj" false = some "accurate" ∧
    pyInS (tagC 0) "accurate" = false ∧
    pyInS (tagC 1) "accurate" = false := by decide

/-- Witness for the amended C2 at a concrete classification. -/
theorem c2_resolved_label_positions_witness :
    (2 ≤ (exFS.ipa_segs "bj").length ∧ (exFS.ipa_segs "bj").length ≤ 3 ∧
      (exFS.word_fts "bj").length = (exFS.ipa_segs "bj").length ∧
      error_pattern exFS "bj" "z" false = some "reduction-C1sub-C2del" ∧
      '-' ∈ "reduction-C1sub-C2del".data) ∧
    (∃ b ts, isBasic b ∧
      "reduction-C1sub-C2del" = b ++ "-" ++ "-".intercalate ts ∧
      List.Sorted strLeP ts ∧
      (∀ i < (exFS.ipa_segs "bj").length,
        ts.countP (fun s => (tagC i).data.isPrefixOf s.data) = 1) ∧
      (∀ s ∈ ts, ∃ i < (exFS.ipa_segs "bj").length,
        (tagC i).data.isPrefixOf s.data = true)) :=
  ⟨⟨by decide, by decide, by decide, by decide, by decide⟩,
    c2_resolved_label_positions exFS "bj" "z" "reduction-C1sub-C2del"
      (by decide) (by decide) (by decide) (by decide) (by decide)⟩

/-- Counterexample to C1 as stated: with target `bj` and actual `z`, the
smallest strictly positive feature distance is attained at target index 1
(the segment `j`, distance `3/2` against `2` for `b`), yet the code tags
`C1sub` — because its scan admits only distances strictly below the initial
bound `1`, and defaults to index 0 otherwise. -/
theorem c1_counterexample :
    exFS.ipa_segs "bj" = ["b", "j"] ∧
    exFS.ipa_segs "z" = ["z"] ∧
    ("z" ∈ exFS.ipa_segs "bj" → False) ∧
    exFS.dist (exF1 "b") (exF1 "z") = 2 ∧
    exFS.dist (exF1 "j") (exF1 "z") = 3 / 2 ∧
    (0 : ℚ) < 3 / 2 ∧ (3 : ℚ) / 2 < 2 ∧
    smallestDist exFS.dist (exFS.word_fts "bj") (exF1 "z") = (0, 1) ∧
    error_pattern exFS "bj" "z" false = some "reduction-C1sub-C2del" ∧
    pyInS "C2sub" "reduction-C1sub-C2del" = false := by decide

/-- C1 (amended): in the nearest-distance branch of the by-segment loop the
tagged index is `smallest_dist`'s: among the target indices whose distance
to the actual segment lies strictly between 0 and 1, the scan returns the
first index attaining the minimum; if no index qualifies it returns the
default `(0, 1)`, tagging index 0. -/
theorem c1_nearest_positive_below_one {F : Type} (fs : FeatureService F)
    (t_segs : List String) (t_fts : List F) (seg : String × F)
    (hnc : ¬ t_segs.contains seg.1 = true) :
    segTag fs t_segs t_fts seg =
      subTag (smallestDist fs.dist t_fts seg.2).1 ∧
    ((∀ j, (hj : j < t_fts.length) →
        ¬(0 < fs.dist (t_fts.get ⟨j, hj⟩) seg.2 ∧
          fs.dist (t_fts.get ⟨j, hj⟩) seg.2 < 1)) →
      smallestDist fs.dist t_fts seg.2 = (0, 1)) ∧
    (∀ j, (hj : j < t_fts.length) →
      0 < fs.dist (t_fts.get ⟨j, hj⟩) seg.2 →
      fs.dist (t_fts.get ⟨j, hj⟩) seg.2 < 1 →
      (smallestDist fs.dist t_fts seg.2).2 ≤
          fs.dist (t_fts.get ⟨j, hj⟩) seg.2 ∧
        (∃ hr : (smallestDist fs.dist t_fts seg.2).1 < t_fts.length,
          fs.dist (t_fts.get ⟨(smallestDist fs.dist t_fts seg.2).1, hr⟩)
              seg.2 = (smallestDist fs.dist t_fts seg.2).2 ∧
          0 < (smallestDist fs.dist t_fts seg.2).2 ∧
          (smallestDist fs.dist t_fts seg.2).2 < 1) ∧
        (fs.dist (t_fts.get ⟨j, hj⟩) seg.2 =
            (smallestDist fs.dist t_fts seg.2).2 →
          (smallestDist fs.dist t_fts seg.2).1 ≤ j)) := by
  refine ⟨?_, ?_, ?_⟩
  · unfold segTag
    rw [if_neg hnc]
  · intro hnone
    unfold smallestDist
    rcases sdScan_attains fs.dist seg.2 t_fts (0, 1) 0 with h | h
    · exact h
    · obtain ⟨j, hj, e1, e2, e3, e4⟩ := h
      exact absurd ⟨e3, by simpa using e4⟩ (hnone j hj)
  · intro j hj hpos hlt
    unfold smallestDist
    have hmin := sdScan_min fs.dist seg.2 t_fts (0, 1) 0 j hj hpos
      (by simpa using hlt)
    refine ⟨hmin, ?_, ?_⟩
    · rcases sdScan_attains fs.dist seg.2 t_fts (0, 1) 0 with h | h
      · exfalso
        rw [h] at hmin
        simp only at hmin
        exact absurd (lt_of_le_of_lt hmin hlt) (lt_irrefl 1)
      · obtain ⟨j2, hj2, e1, e2, e3, e4⟩ := h
        have hr : (sdScan fs.dist seg.2 t_fts (0, 1) 0).1 < t_fts.length := by
          rw [e1]
          omega
        refine ⟨hr, ?_, ?_, ?_⟩
        · have hget : t_fts.get ⟨(sdScan fs.dist seg.2 t_fts (0, 1) 0).1, hr⟩ =
              t_fts.get ⟨j2, hj2⟩ := by
            congr 1
            ext
            simpa using e1
          rw [hget, e2]
        · rw [e2]
          exact e3
        · rw [e2]
          simpa using e4
    · intro heq
      have := sdScan_first fs.dist seg.2 t_fts (0, 1) 0 j hj hpos
        (by simpa using hlt) heq
      simpa using this

/-- Witness for the amended C1 at a concrete scan. -/
theorem c1_nearest_positive_below_one_witness :
    (¬ (["b", "j"] : List String).contains "q" = true) ∧
    (segTag exFS ["b", "j"] [(1 : ℚ) / 4, 1 / 2] ("q", 0) =
      subTag (smallestDist exFS.dist [(1 : ℚ) / 4, 1 / 2] 0).1 ∧
    ((∀ j, (hj : j < ([(1 : ℚ) / 4, 1 / 2] : List ℚ).length) →
        ¬(0 < exFS.dist (([(1 : ℚ) / 4, 1 / 2] : List ℚ).get ⟨j, hj⟩) 0 ∧
          exFS.dist (([(1 : ℚ) / 4, 1 / 2] : List ℚ).get ⟨j, hj⟩) 0 < 1)) →
      smallestDist exFS.dist [(1 : ℚ) / 4, 1 / 2] 0 = (0, 1)) ∧
    (∀ j, (hj : j < ([(1 : ℚ) / 4, 1 / 2] : List ℚ).length) →
      0 < exFS.dist (([(1 : ℚ) / 4, 1 / 2] : List ℚ).get ⟨j, hj⟩) 0 →
      exFS.dist (([(1 : ℚ) / 4, 1 / 2] : List ℚ).get ⟨j, hj⟩) 0 < 1 →
      (smallestDist exFS.dist [(1 : ℚ) / 4, 1 / 2] 0).2 ≤
          exFS.dist (([(1 : ℚ) / 4, 1 / 2] : List ℚ).get ⟨j, hj⟩) 0 ∧
        (∃ hr : (smallestDist exFS.dist [(1 : ℚ) / 4, 1 / 2] 0).1 <
            ([(1 : ℚ) / 4, 1 / 2] : List ℚ).length,
          exFS.dist (([(1 : ℚ) / 4, 1 / 2] : List ℚ).get
              ⟨(smallestDist exFS.dist [(1 : ℚ) / 4, 1 / 2] 0).1, hr⟩) 0 =
            (smallestDist exFS.dist [(1 : ℚ) / 4, 1 / 2] 0).2 ∧
          0 < (smallestDist exFS.dist [(1 : ℚ) / 4, 1 / 2] 0).2 ∧
          (smallestDist exFS.dist [(1 : ℚ) / 4, 1 / 2] 0).2 < 1) ∧
        (exFS.dist (([(1 : ℚ) / 4, 1 / 2] : List ℚ).get ⟨j, hj⟩) 0 =
            (smallestDist exFS.dist [(1 : ℚ) / 4, 1 / 2] 0).2 →
          (smallestDist exFS.dist [(1 : ℚ) / 4, 1 / 2] 0).1 ≤ j))) :=
  ⟨by decide,
    c1_nearest_positive_below_one exFS ["b", "j"] [(1 : ℚ) / 4, 1 / 2]
      ("q", 0) (by decide)⟩

/-! ### Claim C7: singleton targets -/

/-- Counterexample to C7 as stated: a one-segment target written with two
characters (a digraph segment, like aspirated stops in panphon) is
dispatched by character count into the cluster branch and comes back with a
position tag. -/
theorem c7_counterexample :
    (exFS.ipa_segs "th").length = 1 ∧
    error_pattern exFS "th" "d" false = some "substitution-C1sub" ∧
    ("substitution-C1sub" = "substitution" → False) ∧
    ("substitution-C1sub" = "other" → False) ∧
    pyInS (tagC 0) "substitution-C1sub" = true := by decide

/-- C7 (amended): for every target of character length one that passes the
deletion and accurate checks, `error_pattern` returns `substitution` when
the actual's segment count equals the target's segment count and `other`
otherwise, and neither label carries a position tag. -/
theorem c7_singleton_char {F : Type} (fs : FeatureService F)
    (target actual0 : String) (debug : Bool)
    (h1 : replaceSchwa actual0 ≠ "∅") (h2 : replaceSchwa actual0 ≠ "nan")
    (h3 : fs.ipa_segs (replaceSchwa actual0) ≠ ["∅"])
    (h4 : (fs.ipa_segs (replaceSchwa actual0)).length ≠ 0)
    (hne : fs.ipa_segs target ≠ fs.ipa_segs (replaceSchwa actual0))
    (hlen : target.length = 1) :
    error_pattern fs target actual0 debug =
      some
        (if (fs.ipa_segs target).length =
            (fs.ipa_segs (replaceSchwa actual0)).length then
          "substitution"
        else "other") ∧
      ('-' ∈
        (if (fs.ipa_segs target).length =
            (fs.ipa_segs (replaceSchwa actual0)).length then
          "substitution"
        else "other").data → False) ∧
      ∀ i < 3, pyInS (tagC i)
        (if (fs.ipa_segs target).length =
            (fs.ipa_segs (replaceSchwa actual0)).length then
          "substitution"
        else "other") = false := by
  refine ⟨?_, ?_, ?_⟩
  · simp only [error_pattern]
    rw [if_neg h1, if_neg h2, if_neg (not_or.mpr ⟨h3, h4⟩), if_neg hne,
      if_neg (by omega : ¬ target.length = 0), if_pos hlen]
    by_cases hL : (fs.ipa_segs target).length =
        (fs.ipa_segs (replaceSchwa actual0)).length
    · rw [if_pos hL, if_pos hL]
    · rw [if_neg hL, if_neg hL]
  · by_cases hL : (fs.ipa_segs target).length =
        (fs.ipa_segs (replaceSchwa actual0)).length
    · rw [if_pos hL]
      decide
    · rw [if_neg hL]
      decide
  · intro i hi
    by_cases hL : (fs.ipa_segs target).length =
        (fs.ipa_segs (replaceSchwa actual0)).length
    · rw [if_pos hL]
      interval_cases i <;> decide
    · rw [if_neg hL]
      interval_cases i <;> decide

/-- Witness for the amended C7. -/
theorem c7_singleton_char_witness :
    (replaceSchwa "z" ≠ "∅" ∧ replaceSchwa "z" ≠ "nan" ∧
      exFS.ipa_segs (replaceSchwa "z") ≠ ["∅"] ∧
      (exFS.ipa_segs (replaceSchwa "z")).length ≠ 0 ∧
      exFS.ipa_segs "k" ≠ exFS.ipa_segs (replaceSchwa "z") ∧
      ("k" : String).length = 1) ∧
    (error_pattern exFS "k" "z" false =
      some
        (if (exFS.ipa_segs "k").length =
            (exFS.ipa_segs (replaceSchwa "z")).length then
          "substitution"
        else "other") ∧
      ('-' ∈
        (if (exFS.ipa_segs "k").length =
            (exFS.ipa_segs (replaceSchwa "z")).length then
          "substitution"
        else "other").data → False) ∧
      ∀ i < 3, pyInS (tagC i)
        (if (exFS.ipa_segs "k").length =
            (exFS.ipa_segs (replaceSchwa "z")).length then
          "substitution"
        else "other") = false) :=
  ⟨⟨by decide, by decide, by decide, by decide, by decide, by decide⟩,
    c7_singleton_char exFS "k" "z" false (by decide) (by decide) (by decide)
      (by decide) (by decide) (by decide)⟩

/-! ### Claim C10: the resolver's early return and the table pass -/

theorem mkElem_length {F : Type} [Inhabited F] (fs : FeatureService F)
    (s : String) : (mkElem fs s).length = (fs.ipa_segs s).length := by
  unfold mkElem
  rcases h : fs.ipa_segs s with _ | ⟨x, _ | ⟨y, rest⟩⟩ <;> simp [h]

/-- Counterexample to C10 as stated: an unsegmentable (zero-segment) target
does not have exactly two segments, yet the resolver crashes (`len()` of an
unconverted `ph_element` raises `TypeError`) instead of returning the empty
label. -/
theorem c10_counterexample :
    (exFS.ipa_segs "").length ≠ 2 ∧
    "substitution_other" ≠ "reduction_other" ∧
    error_pattern_resolver exFS "" "b" "substitution_other" =
      Except.error RErr.typeError ∧
    error_pattern_resolver exFS "" "b" "substitution_other" ≠
      Except.ok ("", none) := by decide

/-- C10 (amended): for every input whose target has at least one segment
but not exactly two, with a prior pattern other than `reduction_other`, the
resolver returns the empty label with no alignment; and in the table pass
an empty resolver result keeps the original label while a non-empty one
replaces it. -/
theorem c10_nontwo_unresolved {F : Type} [Inhabited F]
    (fs : FeatureService F) (target actual pattern : String)
    (hp : pattern ≠ "reduction_other")
    (h1 : 1 ≤ (fs.ipa_segs target).length)
    (h2 : (fs.ipa_segs target).length ≠ 2) :
    error_pattern_resolver fs target actual pattern = Except.ok ("", none) ∧
    (∀ target2 actual2 pattern2,
      tableRowResolved fs target2 actual2 pattern2 = Except.ok "" →
        tableRowFinal fs target2 actual2 pattern2 = Except.ok pattern2) ∧
    (∀ target2 actual2 pattern2 r,
      tableRowResolved fs target2 actual2 pattern2 = Except.ok r → r ≠ "" →
        tableRowFinal fs target2 actual2 pattern2 = Except.ok r) := by
  have hlen : phLen (mkElem fs target) =
      Except.ok (fs.ipa_segs target).length := by
    unfold phLen
    rw [mkElem_length fs target, if_neg (by omega)]
  refine ⟨?_, ?_, ?_⟩
  · simp only [error_pattern_resolver]
    rw [if_neg hp]
    split
    · next e heq =>
        rw [hlen] at heq
        exact absurd heq (by simp)
    · next tn heq =>
        rw [hlen] at heq
        injection heq with htn
        rw [if_pos (by omega)]
  · intro target2 actual2 pattern2 htr
    unfold tableRowFinal
    rw [htr]
    simp
  · intro target2 actual2 pattern2 r htr hr
    unfold tableRowFinal
    rw [htr]
    simp [hr]

/-- Witness for the amended C10. -/
theorem c10_nontwo_unresolved_witness :
    ("substitution_other" ≠ "reduction_other" ∧
      1 ≤ (exFS.ipa_segs "b").length ∧ (exFS.ipa_segs "b").length ≠ 2) ∧
    error_pattern_resolver exFS "b" "z" "substitution_other" =
      Except.ok ("", none) :=
  ⟨⟨by decide, by decide, by decide⟩,
    (c10_nontwo_unresolved exFS "b" "z" "substitution_other" (by decide)
      (by decide) (by decide)).1⟩

/-! ### Claims C3 and C9: the resolver's matrix stage crashes.
`ph_segment.fts` is a plain method, not a property, so the source evaluates
`seg.fts.items()` on a bound method (AttributeError) in the epenthesis
vowel filter and `x.fts - y.fts` on two bound methods (TypeError) in the
distance-matrix construction: the alignment enumeration, the overlap
consistency check and the minimum-cost selection are never executed. -/

theorem phLen_error {F : Type} (l : List (PhSeg F)) (e : RErr)
    (h : phLen l = Except.error e) : e = RErr.typeError := by
  unfold phLen at h
  split at h
  · injection h with h2
    exact h2.symm
  · exact absurd h (by simp)

theorem phIter_error {F : Type} (l : List (PhSeg F)) (e : RErr)
    (h : phIter l = Except.error e) : e = RErr.typeError := by
  unfold phIter at h
  split at h
  · injection h with h2
    exact h2.symm
  · exact absurd h (by simp)

theorem resolver_error_cases {F : Type} [Inhabited F] (fs : FeatureService F)
    (target actual pattern : String) (e : RErr)
    (h : error_pattern_resolver fs target actual pattern = Except.error e) :
    e = RErr.typeError ∨ e = RErr.attributeError := by
  simp only [error_pattern_resolver] at h
  split at h
  · exact absurd h (by simp)
  · split at h
    next e2 heq =>
      injection h with h2
      exact Or.inl (h2 ▸ phLen_error _ _ heq)
    next tn heq =>
      split at h
      · exact absurd h (by simp)
      · split at h
        · split at h
          next e2 heq2 =>
            injection h with h2
            exact Or.inl (h2 ▸ phLen_error _ _ heq2)
          next an heq2 =>
            split at h
            next e2 heq3 =>
              injection h with h2
              exact Or.inl (h2 ▸ phIter_error _ _ heq3)
            next l2 heq3 =>
              injection h with h2
              exact Or.inr h2.symm
        · split at h
          next e2 heq2 =>
            injection h with h2
            exact Or.inl (h2 ▸ phLen_error _ _ heq2)
          next an heq2 =>
            split at h
            · exact absurd h (by simp)
            · split at h
              next e2 heq3 =>
                injection h with h2
                exact Or.inl (h2 ▸ phIter_error _ _ heq3)
              next l2 heq3 =>
                injection h with h2
                exact Or.inl h2.symm

/-- C3 (code bug): the minimum-cost selection stage is unreachable.
`ph_segment.fts` is a method, so the distance-matrix construction raises
`TypeError` before any alignment is enumerated: the resolver can never
report multiple optimal alignments, and every non-epenthesis input that
passes the early returns (two-segment target, at most two actual segments)
ends in `TypeError` instead of a refined label. -/
theorem c3_selection_unreachable {F : Type} [Inhabited F]
    (fs : FeatureService F) (target actual pattern : String) :
    error_pattern_resolver fs target actual pattern ≠
      Except.error RErr.multipleOptimal ∧
    (pattern ≠ "reduction_other" → pattern ≠ "epenthesis_other" →
      (fs.ipa_segs target).length = 2 → (fs.ipa_segs actual).length ≤ 2 →
      error_pattern_resolver fs target actual pattern =
        Except.error RErr.typeError) := by
  constructor
  · intro h
    rcases resolver_error_cases fs target actual pattern _ h with h2 | h2 <;>
      exact absurd h2 (by decide)
  · intro h1 h2 h3 h4
    simp only [error_pattern_resolver]
    rw [if_neg h1]
    have ht : phLen (mkElem fs target) = Except.ok 2 := by
      unfold phLen
      rw [mkElem_length fs target, h3]
      rfl
    simp only [ht]
    rw [if_neg (by simp), if_neg h2]
    by_cases h0 : (fs.ipa_segs actual).length = 0
    · have ha : phLen (mkElem fs actual) = Except.error RErr.typeError := by
        unfold phLen
        rw [mkElem_length fs actual, if_pos h0]
      simp only [ha]
    · have ha : phLen (mkElem fs actual) =
          Except.ok (fs.ipa_segs actual).length := by
        unfold phLen
        rw [mkElem_length fs actual, if_neg h0]
      simp only [ha]
      rw [if_neg (by omega)]
      by_cases h5 : (fs.ipa_segs actual).length ≤ 1
      · have hi : phIter (mkElem fs actual) = Except.error RErr.typeError := by
          unfold phIter
          rw [mkElem_length fs actual, if_pos h5]
        simp only [hi]
      · have hi : phIter (mkElem fs actual) = Except.ok (mkElem fs actual) := by
          unfold phIter
          rw [mkElem_length fs actual, if_neg h5]
        simp only [hi]

/-- Witness: a concrete two-segment substitution input reaches the matrix
stage and crashes with `TypeError`. -/
theorem c3_selection_unreachable_witness :
    ("substitution_other" ≠ "reduction_other" ∧
      "substitution_other" ≠ "epenthesis_other" ∧
      (exFS.ipa_segs "bj").length = 2 ∧ (exFS.ipa_segs "dz").length ≤ 2) ∧
    error_pattern_resolver exFS "bj" "dz" "substitution_other" =
      Except.error RErr.typeError :=
  ⟨⟨by decide, by decide, by decide, by decide⟩,
    (c3_selection_unreachable exFS "bj" "dz" "substitution_other").2
      (by decide) (by decide) (by decide) (by decide)⟩

/-- C9 (code bug): the overlap consistency check is dead code. The resolver
can never raise the bare alignment-construction exception, because every
execution that would reach the check first raises `TypeError` at the
distance matrix or `AttributeError` at the epenthesis vowel filter
(`seg.fts.items()` on a bound method); in particular every epenthesis input
with a two-segment target and at least two actual segments dies with
`AttributeError`. -/
theorem c9_check_unreachable {F : Type} [Inhabited F]
    (fs : FeatureService F) (target actual pattern : String) :
    error_pattern_resolver fs target actual pattern ≠
      Except.error RErr.alignmentConstruction ∧
    (pattern = "epenthesis_other" → (fs.ipa_segs target).length = 2 →
      2 ≤ (fs.ipa_segs actual).length →
      error_pattern_resolver fs target actual pattern =
        Except.error RErr.attributeError) := by
  constructor
  · intro h
    rcases resolver_error_cases fs target actual pattern _ h with h2 | h2 <;>
      exact absurd h2 (by decide)
  · intro h1 h2 h3
    simp only [error_pattern_resolver]
    rw [if_neg (by simp [h1])]
    have ht : phLen (mkElem fs target) = Except.ok 2 := by
      unfold phLen
      rw [mkElem_length fs target, h2]
      rfl
    simp only [ht]
    rw [if_neg (by simp), if_pos h1]
    have ha : phLen (mkElem fs actual) =
        Except.ok (fs.ipa_segs actual).length := by
      unfold phLen
      rw [mkElem_length fs actual, if_neg (by omega)]
    simp only [ha]
    have hi : phIter (mkElem fs actual) = Except.ok (mkElem fs actual) := by
      unfold phIter
      rw [mkElem_length fs actual, if_neg (by omega)]
    simp only [hi]

/-- Witness: a concrete epenthesis input reaches the vowel filter and
crashes with `AttributeError`. -/
theorem c9_check_unreachable_witness :
    ((exFS.ipa_segs "bj").length = 2 ∧ 2 ≤ (exFS.ipa_segs "dz").length) ∧
    error_pattern_resolver exFS "bj" "dz" "epenthesis_other" =
      Except.error RErr.attributeError :=
  ⟨⟨by decide, by decide⟩,
    (c9_check_unreachable exFS "bj" "dz" "epenthesis_other").2 rfl
      (by decide) (by decide)⟩

end PhonoEP
